import Mathlib

/-!
Verification of the Nibble GitHub-app orchestration core against its design
specification.  The JavaScript sources are shallowly embedded: strings are
modelled as lists of characters (`Str`), JS numbers appearing in the verified
code paths as `Rat` (confidence scores) or `Int` (millisecond timestamps),
JS `Map`s as functions with pointwise update, thrown-and-caught exceptions as
`Except`, and the mutating GitHub API calls of the workflow as an emitted
action trace.  Every definition mirrors the corresponding source function;
spec-side definitions (used only to compare the code against the
specification's wording) are explicitly marked as such.
-/

/-- Character lists stand for JS strings in the text-processing functions. -/
abbrev Str := List Char

/-- Embedding of `String.prototype.trim` (whitespace stripped from both
ends); `Char.isWhitespace` covers the ASCII whitespace relevant here. -/
def trimChars (l : Str) : Str :=
  ((l.dropWhile Char.isWhitespace).reverse.dropWhile Char.isWhitespace).reverse

/-- Embedding of `String.prototype.toLowerCase` for the ASCII strings the
security middleware compares. -/
def lowerChars (l : Str) : Str :=
  l.map Char.toLower

/-- Embedding of `String.prototype.split(sep)` for a one-character
separator (the sources split on `'\n'` and `'/'`). -/
def splitOnChar (sep : Char) : Str → List Str
  | [] => [[]]
  | c :: rest =>
    let r := splitOnChar sep rest
    if c = sep then [] :: r
    else
      match r with
      | [] => [[c]]
      | l :: ls => (c :: l) :: ls

/-- `content.split('\n')`. -/
def splitNL (l : Str) : List Str :=
  splitOnChar '\n' l

/-- Embedding of `Array.prototype.join('\n')`. -/
def joinNL : List Str → Str
  | [] => []
  | [l] => l
  | l :: ls => l ++ '\n' :: joinNL ls

/-- Whether `pat` occurs in `content` starting at index `i` (an exact
substring match at one position). -/
def occursAtB (content pat : Str) (i : Nat) : Bool :=
  pat.isPrefixOf (content.drop i)

/-- Unanchored substring test, the meaning of `regex.test(s)` for a regex
whose pattern is a plain escaped string. -/
def containsSub (content pat : Str) : Bool :=
  (List.range (content.length + 1)).any (occursAtB content pat)

/-- Anchored-at-end substring test, the meaning of `/...$/.test(s)`. -/
def endsWithSub (content pat : Str) : Bool :=
  pat.isSuffixOf content

/-- Index of the first occurrence of `pat` in `content`
(`String.prototype.indexOf`), `none` when absent. -/
def firstIndexOf (content pat : Str) : Option Nat :=
  (List.range (content.length + 1)).find? (occursAtB content pat)

/-- Spec-side definition (from the specification's words, not the code):
the number of positions at which `pat` occurs in `content` as an exact
substring.  Overlapping occurrences are counted separately. -/
def occCount (content pat : Str) : Nat :=
  ((List.range (content.length + 1)).filter (occursAtB content pat)).length

/-- Left-to-right scan counting non-overlapping matches of the (non-empty)
literal pattern, the semantics of `s.match(/escaped/g).length` for a global
regex built from an escaped string: after a match the scan resumes right
after the matched text.  `skip` is the number of characters still to consume
before matching may resume. -/
def scanAux (pat : Str) : Nat → Str → Nat
  | _, [] => 0
  | s + 1, _ :: rest => scanAux pat s rest
  | 0, c :: rest =>
    if pat.isPrefixOf (c :: rest) then 1 + scanAux pat (pat.length - 1) rest
    else scanAux pat 0 rest

/-- Number of non-overlapping matches found by the greedy left-to-right
scan. -/
def scanCount (pat content : Str) : Nat :=
  scanAux pat 0 content

/-- Embedding of `(surroundingCode.match(new RegExp(escapeRegex(searchText),
'g')) || []).length` from `nibbleAI.js`.  `escapeRegex` escapes every regex
metacharacter, so the regex matches the literal search text; a global match
counts non-overlapping occurrences.  An empty pattern matches once at every
position including the end of the string. -/
def regexMatchCount (content pat : Str) : Nat :=
  if pat.isEmpty then content.length + 1 else scanCount pat content

/-- Embedding of `NibbleAI.validateSearchText(surroundingCode, searchText)`:
`occurrences === 1`. -/
def validateSearchText (surroundingCode searchText : Str) : Bool :=
  regexMatchCount surroundingCode searchText == 1

/-- Embedding of the ECMAScript `GetSubstitution` expansion used by
`String.prototype.replace` when the replacement is a string and the pattern
is a plain string (so there are no capture groups): `$$` yields a dollar,
`$&` the matched text, a dollar followed by backquote the text before the
match, a dollar followed by a quote the text after the match; every other
character, and every other dollar sequence, is copied literally. -/
def getSubstitution (matched before after : Str) : Str → Str
  | [] => []
  | c :: rest =>
    if c = '$' then
      match rest with
      | [] => ['$']
      | d :: rest2 =>
        if d = '$' then '$' :: getSubstitution matched before after rest2
        else if d = '&' then matched ++ getSubstitution matched before after rest2
        else if d = Char.ofNat 96 then before ++ getSubstitution matched before after rest2
        else if d = Char.ofNat 39 then after ++ getSubstitution matched before after rest2
        else '$' :: d :: getSubstitution matched before after rest2
    else c :: getSubstitution matched before after rest

/-- Embedding of `content.replace(search, repl)` with string arguments:
only the first occurrence is replaced, and the replacement string undergoes
`GetSubstitution` dollar expansion.  When the search text does not occur the
content is returned unchanged. -/
def jsReplaceFirst (content search repl : Str) : Str :=
  match firstIndexOf content search with
  | none => content
  | some i =>
    content.take i
      ++ getSubstitution search (content.take i) (content.drop (i + search.length)) repl
      ++ content.drop (i + search.length)

/-- Spec-side definition (from the specification's words): replace the first
occurrence of `search` by `repl` taken literally, with no dollar
expansion. -/
def literalReplaceFirst (content search repl : Str) : Str :=
  match firstIndexOf content search with
  | none => content
  | some i => content.take i ++ repl ++ content.drop (i + search.length)

/-- True when the replacement text contains no dollar character, in which
case JS string replacement is the literal textual substitution. -/
def noDollar (l : Str) : Bool :=
  l.all (fun c => c ≠ '$')

/-- The filter callback of `NibbleService.removeNibbleComment`, embedded
with its full branch structure.  A line is dropped exactly when its trimmed
text equals the trimmed marker comment; the blank-line inspection of the
source (looking up the line's first index and its neighbours) returns `true`
on every path and is kept here verbatim. -/
def keepLine (lines : List Str) (nibbleComment : Str) (line : Str) : Bool :=
  if trimChars line = trimChars nibbleComment then false
  else if trimChars line = [] ∧ 0 < lines.indexOf line then
    match lines.get? (lines.indexOf line - 1), lines.get? (lines.indexOf line + 1) with
    | some prevLine, some nextLine =>
      if (!prevLine.isEmpty) && (!nextLine.isEmpty)
          && !(['#'].isPrefixOf (trimChars prevLine))
          && !(['/', '/'].isPrefixOf (trimChars prevLine))
          && !(['#'].isPrefixOf (trimChars nextLine))
          && !(['/', '/'].isPrefixOf (trimChars nextLine)) then
        true
      else true
    | _, _ => true
  else true

/-- Embedding of `NibbleService.removeNibbleComment(content, nibbleComment)`:
split into lines, filter with `keepLine`, join back with newlines. -/
def removeNibbleComment (content nibbleComment : Str) : Str :=
  joinNL ((splitNL content).filter (keepLine (splitNL content) nibbleComment))

/-- The improvement object assembled by `analyzeNibbleInFile`: the parsed AI
suggestion plus the file metadata (`file`, `fullContent`, the originating
marker line `originalNibble`).  The stored revision fingerprint does not
influence the content transformation and is omitted. -/
structure Improvement where
  title : String
  explanation : String
  searchText : Str
  replaceText : Str
  fullContent : Str
  originalNibble : Str
  file : String
  confidence : Rat
deriving DecidableEq

/-- Embedding of the content transformation of
`NibbleService.applyAIImprovement`: substitute the search text, then remove
the originating marker comment line. -/
def applyAIImprovement (improvement : Improvement) : Str :=
  removeNibbleComment
    (jsReplaceFirst improvement.fullContent improvement.searchText improvement.replaceText)
    improvement.originalNibble

/-- The literal `0.7` of `improvement.confidence > 0.7`
in `findAndAnalyzeNibble` (7/10 in lowest terms). -/
def confidenceThreshold : Rat :=
  ⟨7, 10, by norm_num, by norm_num⟩

/-- The mutating hosting-platform calls issued by one `performNibble`
invocation, recorded as a trace. -/
inductive NibbleAction where
  | createRef (branch sha : String)
  | deleteRef (branch : String)
  | updateFile (path : String) (content : Str)
  | createPr (title head base : String)
deriving DecidableEq

/-- The value returned by `performNibble`: `{skipped: true, reason}` or
`{success: true, pr, improvement, confidence}`. -/
inductive NibbleOutcome where
  | skipped (reason : String)
  | success (prUrl title : String) (confidence : Rat)
deriving DecidableEq

/-- The environment a single `performNibble` invocation runs against: the
responses of the hosting platform and of the per-file analysis
(`analyzeNibbleInFile`, whose errors and rejected suggestions both surface
as `none`). -/
structure NibbleEnv where
  openPRs : List String
  defaultBranch : String
  headSha : String
  searchItems : List String
  analyze : String → Option Improvement
  prUrl : String

/-- The candidate loop of `findAndAnalyzeNibble`: first analysis result
whose confidence exceeds the threshold. -/
def findAndAnalyzeLoop (env : NibbleEnv) : List String → Option Improvement
  | [] => none
  | item :: rest =>
    match env.analyze item with
    | some improvement =>
      if confidenceThreshold < improvement.confidence then some improvement
      else findAndAnalyzeLoop env rest
    | none => findAndAnalyzeLoop env rest

/-- Embedding of `NibbleService.findAndAnalyzeNibble`: `null` on an empty
search result, otherwise the candidate loop. -/
def findAndAnalyzeNibble (env : NibbleEnv) : Option Improvement :=
  if env.searchItems.isEmpty then none
  else findAndAnalyzeLoop env env.searchItems

/-- The deterministic daily branch name
`nibble/daily-improvement-YYYY-MM-DD`. -/
def dailyBranchName (today : String) : String :=
  "nibble/daily-improvement-" ++ today

/-- Embedding of `NibbleService.performNibble` (the per-repository
workflow), returning the outcome together with the trace of mutating
platform calls.  Owner and repository only address the platform calls whose
responses `env` already fixes, so they do not appear as parameters. -/
def performNibble (env : NibbleEnv) (today : String) : NibbleOutcome × List NibbleAction :=
  if 0 < env.openPRs.length then (NibbleOutcome.skipped "existing_pr", [])
  else
    match findAndAnalyzeNibble env with
    | none =>
      (NibbleOutcome.skipped "no_improvement_found",
        [NibbleAction.createRef (dailyBranchName today) env.headSha,
         NibbleAction.deleteRef (dailyBranchName today)])
    | some improvement =>
      (NibbleOutcome.success env.prUrl improvement.title improvement.confidence,
        [NibbleAction.createRef (dailyBranchName today) env.headSha,
         NibbleAction.updateFile improvement.file (applyAIImprovement improvement),
         NibbleAction.createPr ("🍽️ Daily Nibble: " ++ improvement.title)
           (dailyBranchName today) env.defaultBranch])

/-- A JSON value as it reaches the response validator after `JSON.parse`:
the JS types the validator distinguishes. -/
inductive JValue where
  | jstr (s : String)
  | jnum (q : Rat)
  | jbool (b : Bool)
  | jnull
deriving DecidableEq

/-- The parsed AI response object: each required field is either absent
(`none`, `hasOwnProperty` false) or present with some JSON value. -/
structure AIResponse where
  canImprove : Option JValue
  title : Option JValue
  explanation : Option JValue
  searchText : Option JValue
  replaceText : Option JValue
  confidence : Option JValue
deriving DecidableEq

/-- Whether a present value is a JS boolean (`typeof v === 'boolean'`). -/
def isBoolVal : Option JValue → Bool
  | some (JValue.jbool _) => true
  | _ => false

/-- Whether a present value is a JS number within `[0, 1]`
(`typeof v === 'number' && v >= 0 && v <= 1`). -/
def isNumIn01 : Option JValue → Bool
  | some (JValue.jnum q) => decide (0 ≤ q) && decide (q ≤ 1)
  | _ => false

/-- Whether a present value is a JS string (`typeof v === 'string'`); used
only by the spec-side shape predicate, the source never checks this. -/
def isStrVal : Option JValue → Bool
  | some (JValue.jstr _) => true
  | _ => false

/-- Embedding of `NibbleAI.isValidResponse(response)`: all six required
fields present, `canImprove` a boolean, `confidence` a number in `[0, 1]`.
No type check is performed on the four textual fields. -/
def isValidResponse (r : AIResponse) : Bool :=
  (r.canImprove.isSome && r.title.isSome && r.explanation.isSome
      && r.searchText.isSome && r.replaceText.isSome && r.confidence.isSome)
    && isBoolVal r.canImprove
    && isNumIn01 r.confidence

/-- Spec-side definition (from the specification's words): every required
field present with the correct type — textual fields strings, the capability
flag a boolean, the confidence a number in `[0, 1]`. -/
def claimValidShape (r : AIResponse) : Bool :=
  isBoolVal r.canImprove && isStrVal r.title && isStrVal r.explanation
    && isStrVal r.searchText && isStrVal r.replaceText && isNumIn01 r.confidence

/-- Embedding of the body of `NibbleAI.parseResponse` after `JSON.parse`
succeeded: an invalid structure throws (`Except.error`), a valid structure
whose `canImprove` is `false` yields `null` (`ok none`), otherwise the
suggestion itself. -/
def parseResponseChecked (r : AIResponse) : Except String (Option AIResponse) :=
  if !isValidResponse r then Except.error "Invalid response structure"
  else if r.canImprove = some (JValue.jbool false) then Except.ok none
  else Except.ok (some r)

/-- Embedding of `NibbleAI.parseResponse` including its `catch`: every
thrown error is logged and turned into `null`. -/
def parseResponse (r : AIResponse) : Option AIResponse :=
  match parseResponseChecked r with
  | Except.ok v => v
  | Except.error _ => none

/-- The request data inspected by the security middleware. -/
structure HttpRequest where
  url : String
  userAgent : String
  host : String
deriving DecidableEq

/-- The reply of `blockSuspiciousRequests`: fall through to the route, a
404 `Not found`, or a 403 `Forbidden`. -/
inductive GuardResult where
  | pass
  | notFound
  | forbidden
deriving DecidableEq

/-- Embedding of the `suspiciousPatterns` regex list applied to the
lowercased URL: each pattern is an unanchored or end-anchored literal. -/
def suspiciousUrl (url : Str) : Bool :=
  containsSub url "/.git/".toList || endsWithSub url "/.env".toList
    || containsSub url "/.aws/".toList || containsSub url "/.ssh/".toList
    || containsSub url "/wp-admin/".toList || containsSub url "/wp-login".toList
    || containsSub url "/admin/".toList || containsSub url "/phpmyadmin/".toList
    || endsWithSub url ".php".toList || endsWithSub url ".sql".toList
    || endsWithSub url ".bak".toList || endsWithSub url ".backup".toList
    || endsWithSub url ".old".toList || endsWithSub url ".config".toList
    || endsWithSub url ".log".toList || endsWithSub url "/sitemap.xml".toList
    || containsSub url "/apple-touch-icon".toList || containsSub url "/.well-known/".toList
    || containsSub url "/aws/".toList || containsSub url "/azure/".toList
    || containsSub url "/gcp/".toList || containsSub url "/docker/".toList
    || containsSub url "/kubernetes/".toList || endsWithSub url "/package.json".toList
    || endsWithSub url "/composer.json".toList || endsWithSub url "/yarn.lock".toList
    || endsWithSub url "/package-lock.json".toList

/-- A JS word character, the `\w` class: letters, digits, underscore. -/
def isWordChar (c : Char) : Bool :=
  c.isAlpha || c.isDigit || c = '_'

/-- `/^word\b/i` on an already-lowercased string: the prefix followed by a
word boundary (end of string or a non-word character). -/
def startsWithWordBoundary (pre s : Str) : Bool :=
  pre.isPrefixOf s
    && (match s.drop pre.length with
        | [] => true
        | c :: _ => !isWordChar c)

/-- Embedding of the `suspiciousUserAgents` regex list (all
case-insensitive, hence applied to the lowercased agent string). -/
def suspiciousUserAgent (userAgent : Str) : Bool :=
  startsWithWordBoundary "bot".toList (lowerChars userAgent)
    || startsWithWordBoundary "crawler".toList (lowerChars userAgent)
    || startsWithWordBoundary "spider".toList (lowerChars userAgent)
    || containsSub (lowerChars userAgent) "scanner".toList
    || "curl/".toList.isPrefixOf (lowerChars userAgent)
    || "wget/".toList.isPrefixOf (lowerChars userAgent)
    || "python-requests/".toList.isPrefixOf (lowerChars userAgent)
    || "go-http-client/".toList.isPrefixOf (lowerChars userAgent)
    || containsSub (lowerChars userAgent) "nikto".toList
    || containsSub (lowerChars userAgent) "sqlmap".toList
    || containsSub (lowerChars userAgent) "nmap".toList
    || containsSub (lowerChars userAgent) "masscan".toList
    || containsSub (lowerChars userAgent) "zaproxy".toList
    || containsSub (lowerChars userAgent) "burpsuite".toList
    || containsSub (lowerChars userAgent) "nuclei".toList
    || containsSub (lowerChars userAgent) "acunetix".toList
    || containsSub (lowerChars userAgent) "nessus".toList
    || containsSub (lowerChars userAgent) "openvas".toList

/-- The fixed `allowedHosts` list; `serverIP` stands for
`process.env.SERVER_IP || '84.235.169.140'`. -/
def allowedHosts (serverIP : String) : List String :=
  ["nibble.practical-engineer.ai", "localhost", "127.0.0.1", serverIP]

/-- Embedding of the request handler returned by
`blockSuspiciousRequests()`: suspicious URL patterns are answered 404,
suspicious user agents 403, hosts outside the allow-list 404, and everything
else falls through.  The checks run in exactly this order. -/
def blockSuspiciousRequests (serverIP : String) (req : HttpRequest) : GuardResult :=
  if suspiciousUrl (lowerChars req.url.toList) then GuardResult.notFound
  else if suspiciousUserAgent req.userAgent.toList then GuardResult.forbidden
  else if !((allowedHosts serverIP).contains req.host) then GuardResult.notFound
  else GuardResult.pass

/-- Pointwise update of a map-as-function, the embedding of `Map.set` (and
of `Map.delete`, writing the default back). -/
def mset {α : Type} (m : String → α) (k : String) (v : α) : String → α :=
  fun x => if x = k then v else m x

/-- The options of `createAdvancedRateLimiter`.  Times are in
milliseconds. -/
structure RLConfig where
  maxRequests : Nat
  windowMs : Int
  blockDuration : Int
  maxViolations : Nat

/-- The limiter's three maps, keyed by caller address: `requests` (absent
key = empty array), `violations` (absent key = 0), `blockedIPs` (absent key
= no block). -/
structure RLState where
  requests : String → List Int
  violations : String → Nat
  blocked : String → Option Int

/-- The admission decision sent to the client: pass, a 429 for a blocked
address, or a 429 for an exceeded window, each with its `retryAfter`
seconds. -/
inductive RLResult where
  | admitted
  | blockedReject (retryAfter : Int)
  | tooMany (retryAfter : Int)
deriving DecidableEq

/-- `Math.ceil(a / 1000)`; both uses in the source divide a non-negative
number of milliseconds, where this rounded-up integer division agrees. -/
def ceilSec (a : Int) : Int :=
  (a + 999) / 1000

/-- The window-accounting part of the limiter (everything after the block
check): filter the recorded timestamps to the sliding window; at or above
`maxRequests` reject, bump the violation counter and possibly install a
block — without storing the filtered list; below the limit admit and record
the request. -/
def rateLimiterWindow (cfg : RLConfig) (st : RLState) (key : String) (now : Int) :
    RLResult × RLState :=
  if cfg.maxRequests ≤ ((st.requests key).filter (fun t => now - cfg.windowMs < t)).length then
    (RLResult.tooMany (ceilSec cfg.windowMs),
      if cfg.maxViolations ≤ st.violations key + 1 then
        { st with violations := mset st.violations key (st.violations key + 1),
                  blocked := mset st.blocked key (some (now + cfg.blockDuration)) }
      else
        { st with violations := mset st.violations key (st.violations key + 1) })
  else
    (RLResult.admitted,
      { st with
          requests := mset st.requests key
            ((st.requests key).filter (fun t => now - cfg.windowMs < t) ++ [now]) })

/-- Embedding of the request handler returned by
`createAdvancedRateLimiter(options)` for one request from `key` at time
`now`: an unexpired block rejects outright with the remaining time; an
expired block is cleared together with the violation counter before ordinary
window accounting runs. -/
def advancedRateLimiterStep (cfg : RLConfig) (st : RLState) (key : String) (now : Int) :
    RLResult × RLState :=
  match st.blocked key with
  | some u =>
    if now < u then (RLResult.blockedReject (ceilSec (u - now)), st)
    else
      rateLimiterWindow cfg
        { st with blocked := mset st.blocked key none, violations := mset st.violations key 0 }
        key now
  | none => rateLimiterWindow cfg st key now

/-- A sequence of requests for the same key, processed in order; returns
the per-request decisions and the final limiter state. -/
def runRequests (cfg : RLConfig) (k : String) : RLState → List Int → List RLResult × RLState
  | st, [] => ([], st)
  | st, t :: ts =>
    let p := advancedRateLimiterStep cfg st k t
    let rest := runRequests cfg k p.2 ts
    (p.1 :: rest.1, rest.2)

/-- One repository entry of a stored installation; of its fields only
`full_name` is read by the functions verified here. -/
structure RepoRef where
  full_name : String
deriving DecidableEq

/-- A stored installation record, with the fields read by deduplication and
the nightly run.  `createdAt` is the parsed timestamp (`new
Date(createdAt)`, milliseconds). -/
structure Installation where
  id : Nat
  createdAt : Int
  enabled : Bool
  repositories : List RepoRef
deriving DecidableEq

/-- Whether an installation lists a repository full name. -/
def listsName (i : Installation) (n : String) : Bool :=
  i.repositories.any (fun r => r.full_name == n)

/-- One step of building `repoToInstallations`: append the installation to
the group of `key`, creating the group at the end on first sight (JS `Map`
insertion order). -/
def addToGroup (acc : List (String × List Installation)) (key : String) (i : Installation) :
    List (String × List Installation) :=
  match acc with
  | [] => [(key, [i])]
  | (k, g) :: rest =>
    if k = key then (k, g ++ [i]) :: rest
    else (k, g) :: addToGroup rest key i

/-- The grouping loop of `cleanupDuplicateInstallations`: for every
installation, in table order, and every listed repository, add the
installation to that repository name's group. -/
def buildGroups (insts : List Installation) : List (String × List Installation) :=
  insts.foldl
    (fun acc inst => inst.repositories.foldl (fun acc2 r => addToGroup acc2 r.full_name inst) acc)
    []

/-- Stable insertion of an installation into a list sorted by descending
`createdAt`: inserted after every entry of greater or equal timestamp,
matching the stable JS `sort((a, b) => dateB - dateA)`. -/
def insertByCreatedDesc (x : Installation) : List Installation → List Installation
  | [] => [x]
  | y :: ys => if y.createdAt < x.createdAt then x :: y :: ys else y :: insertByCreatedDesc x ys

/-- Stable sort by descending `createdAt` (newest first). -/
def sortByCreatedDesc : List Installation → List Installation
  | [] => []
  | x :: xs => insertByCreatedDesc x (sortByCreatedDesc xs)

/-- Embedding of `InstallationManager.cleanupDuplicateInstallations`: build
the repository groups, and for every group of more than one entry sort it
newest-first and delete every entry but the first from the installation
table — the whole installation record, via `installations.delete(id)`. -/
def cleanupDuplicateInstallations (insts : List Installation) : List Installation :=
  (buildGroups insts).foldl
    (fun acc g =>
      if 1 < g.2.length then
        ((sortByCreatedDesc g.2).drop 1).foldl
          (fun acc2 old => acc2.filter (fun x => x.id ≠ old.id)) acc
      else acc)
    insts

/-- The identifiers deleted by the cleanup loop: for every group with a
duplicate, every entry after the newest in the sorted group. -/
def lostIds : List (String × List Installation) → List Nat
  | [] => []
  | g :: gs =>
    (if 1 < g.2.length then ((sortByCreatedDesc g.2).drop 1).map (fun i => i.id) else [])
      ++ lostIds gs

/-- `Array.from(map.entries()).filter(([id, data]) => data.enabled)`: the
enabled installations, in table order. -/
def getAllEnabledInstallations (insts : List Installation) : List Installation :=
  insts.filter (fun i => i.enabled)

/-- `full_name.split('/')[0]`. -/
def ownerOf (full : String) : String :=
  ((splitOnChar '/' full.toList).map (fun l => String.mk l)).getD 0 ""

/-- `full_name.split('/')[1]` (empty for a name without a slash, where the
JS code would pass `undefined`). -/
def repoNameOf (full : String) : String :=
  ((splitOnChar '/' full.toList).map (fun l => String.mk l)).getD 1 ""

/-- What the nightly loop logs: a completed nibble, a caught per-repository
error, or a caught per-installation error. -/
inductive NightlyEvent where
  | nibbled (repo : String)
  | repoError (repo : String) (err : String)
  | instError (id : Nat) (err : String)
deriving DecidableEq

/-- Embedding of `NibbleService.runNightlyNibbles`.  `getOcto` models
`app.getInstallationOctokit` (its failure is caught by the per-installation
`try`), `step` models the `performNibble` call for one repository (its
failure is caught by the per-repository `try` and logged).  The JS function
returns `undefined` — the unit first component; the event list models the
logger output.  The fixed inter-repository sleep has no observable effect
here and is not modelled. -/
def runNightlyNibbles (getOcto : Nat → Except String Unit)
    (step : Nat → String → String → Except String NibbleOutcome)
    (insts : List Installation) : Unit × List NightlyEvent :=
  ((),
    (getAllEnabledInstallations insts).foldl
      (fun acc inst =>
        match getOcto inst.id with
        | Except.error e => acc ++ [NightlyEvent.instError inst.id e]
        | Except.ok _ =>
          acc ++ inst.repositories.foldl
            (fun acc2 r =>
              match step inst.id (ownerOf r.full_name) (repoNameOf r.full_name) with
              | Except.ok _ => acc2 ++ [NightlyEvent.nibbled r.full_name]
              | Except.error e => acc2 ++ [NightlyEvent.repoError r.full_name e])
            [])
      [])

/-- The per-installation event block of the nightly run, the closed form the
loop above computes for one installation. -/
def nightlyEventsFor (getOcto : Nat → Except String Unit)
    (step : Nat → String → String → Except String NibbleOutcome)
    (inst : Installation) : List NightlyEvent :=
  match getOcto inst.id with
  | Except.error e => [NightlyEvent.instError inst.id e]
  | Except.ok _ =>
    inst.repositories.map
      (fun r =>
        match step inst.id (ownerOf r.full_name) (repoNameOf r.full_name) with
        | Except.ok _ => NightlyEvent.nibbled r.full_name
        | Except.error e => NightlyEvent.repoError r.full_name e)

/-- The group stored for a repository full name in the grouping table
(`repoToInstallations.get(name)`), empty when the name was never seen. -/
def groupVal : List (String × List Installation) → String → List Installation
  | [], _ => []
  | e :: rest, n => if e.1 = n then e.2 else groupVal rest n

/-- The lines surviving marker removal: every line whose trimmed text
differs from the trimmed marker comment, in order. -/
def markerFiltered (content nib : Str) : List Str :=
  (splitNL content).filter (fun l => !(trimChars l == trimChars nib))

/-- Fixture: a fresh limiter state — no recorded requests, no violations,
no blocks. -/
def rlStateFresh : RLState :=
  ⟨fun _ => [], fun _ => 0, fun _ => none⟩

/-- Fixture: a limiter state in which address `10.0.0.1` is blocked until
time 1000 and carries five violations. -/
def rlStateBlocked : RLState :=
  ⟨fun _ => [], fun _ => 5, fun x => if x = "10.0.0.1" then some 1000 else none⟩

/-- Fixture: the production limiter options of `index.js`. -/
def rlConfigProd : RLConfig :=
  ⟨20, 60000, 600000, 3⟩

/-- Fixture: a workflow environment with no open PR and an empty candidate
search result. -/
def nibbleEnvNoMarker : NibbleEnv :=
  ⟨[], "main", "abc123", [], fun _ => none, "unused"⟩

/-- Fixture: an accepted improvement whose replacement text uses the JS
dollar escape `$&` (the matched text), so the performed substitution is not
the literal replacement text. -/
def dollarImp : Improvement :=
  ⟨"t", "e", "ab".toList, "$&$&".toList, "ab\n// NIBBLE fix\n".toList,
    "// NIBBLE fix".toList, "f.js", 1⟩

/-- Fixture: an accepted improvement with a plain (dollar-free) replacement
text. -/
def plainImp : Improvement :=
  ⟨"t", "e", "b".toList, "c".toList, "a\n\nb\n// NIBBLE x\n".toList,
    "// NIBBLE x".toList, "f.py", 1⟩

/-- Fixture: one enabled installation with two repositories. -/
def nightlyInstA : Installation :=
  ⟨1, 0, true, [⟨"acme/alpha"⟩, ⟨"acme/beta"⟩]⟩

/-- Fixture: a per-repository step that throws on `alpha` and succeeds on
every other repository. -/
def nightlyStep : Nat → String → String → Except String NibbleOutcome :=
  fun _ _ repo =>
    if repo = "alpha" then Except.error "boom"
    else Except.ok (NibbleOutcome.skipped "existing_pr")

/-- Fixture: installation authentication that always succeeds. -/
def nightlyOcto : Nat → Except String Unit :=
  fun _ => Except.ok ()

/-- Fixture: the newer of two installations both listing `a/b`. -/
def instNewer : Installation :=
  ⟨1, 2000, true, [⟨"a/b"⟩]⟩

/-- Fixture: the older installation, listing the duplicated `a/b` and its
own `b/c`. -/
def instOlder : Installation :=
  ⟨2, 1000, true, [⟨"a/b"⟩, ⟨"b/c"⟩]⟩

theorem mset_same {α : Type} (m : String → α) (k : String) (v : α) : mset m k v k = v := by
  simp [mset]

theorem listsName_iff (i : Installation) (n : String) :
    listsName i n = true ↔ n ∈ i.repositories.map (fun r => r.full_name) := by
  simp [listsName, List.any_eq_true, List.mem_map]

/-- C9 (counterexample).  The claim states that every request whose target
host is outside the allow-list is rejected with a not-found response, never
a forbidden one.  But the user-agent check runs before the host check: a
request from host `evil.example` (not allow-listed) with user agent
`curl/7.88.1` is answered 403 Forbidden, not 404. -/
theorem blockSuspicious_forbidden_counterexample :
    ((allowedHosts "84.235.169.140").contains "evil.example") = false
      ∧ blockSuspiciousRequests "84.235.169.140"
          ⟨"/", "curl/7.88.1", "evil.example"⟩ = GuardResult.forbidden := by
  constructor
  · decide
  · decide

/-- C9 (amended).  Every request whose target host is not in the allow-list
and whose user agent does not match a scanner signature is rejected with the
not-found response — either by the suspicious-URL check (which also answers
404) or by the host check itself; the forbidden response can only arise from
the earlier user-agent check. -/
theorem blockSuspicious_unlisted_host_not_found (serverIP : String) (req : HttpRequest)
    (hhost : ((allowedHosts serverIP).contains req.host) = false)
    (hua : suspiciousUserAgent req.userAgent.toList = false) :
    blockSuspiciousRequests serverIP req = GuardResult.notFound := by
  unfold blockSuspiciousRequests
  split
  · rfl
  · rw [hua]
    simp only [Bool.false_eq_true, if_false]
    simp at hhost
    simp [hhost]

/-- C9 (witness): the amended theorem at a concrete request from an
unlisted host with an ordinary browser user agent. -/
theorem blockSuspicious_unlisted_host_not_found_witness :
    ((allowedHosts "1.2.3.4").contains "evil.example") = false
      ∧ suspiciousUserAgent ("Mozilla/5.0").toList = false
      ∧ blockSuspiciousRequests "1.2.3.4" ⟨"/", "Mozilla/5.0", "evil.example"⟩
          = GuardResult.notFound :=
  ⟨by decide, by decide,
    blockSuspicious_unlisted_host_not_found "1.2.3.4" ⟨"/", "Mozilla/5.0", "evil.example"⟩
      (by decide) (by decide)⟩

theorem isBoolVal_iff (o : Option JValue) :
    isBoolVal o = true ↔ ∃ b, o = some (JValue.jbool b) := by
  cases o with
  | none => simp [isBoolVal]
  | some v => cases v <;> simp [isBoolVal]

theorem isNumIn01_iff (o : Option JValue) :
    isNumIn01 o = true ↔ ∃ q, o = some (JValue.jnum q) ∧ 0 ≤ q ∧ q ≤ 1 := by
  cases o with
  | none => simp [isNumIn01]
  | some v =>
    cases v with
    | jnum q => simp [isNumIn01, Bool.and_eq_true, decide_eq_true_eq]
    | jstr s => simp [isNumIn01]
    | jbool b => simp [isNumIn01]
    | jnull => simp [isNumIn01]

/-- C8 (counterexample).  The claim states the shape validator returns true
only when every required field is present with the correct type; but the
source checks the types of only the capability flag and the confidence.  A
suggestion whose `title` is the number 42 (and whose other textual fields
are strings) passes `isValidResponse` although its title does not have the
correct type. -/
theorem isValidResponse_untyped_title_counterexample :
    isValidResponse
        ⟨some (JValue.jbool true), some (JValue.jnum 42), some (JValue.jstr "e"),
          some (JValue.jstr "s"), some (JValue.jstr "r"), some (JValue.jnum 1)⟩ = true
      ∧ claimValidShape
          ⟨some (JValue.jbool true), some (JValue.jnum 42), some (JValue.jstr "e"),
            some (JValue.jstr "s"), some (JValue.jstr "r"), some (JValue.jnum 1)⟩ = false := by
  constructor
  · decide
  · decide

/-- C8 (amended).  `isValidResponse` is true exactly when all six required
fields are present, the capability flag is a boolean and the confidence is a
number in `[0, 1]` — the textual fields' types are not checked.  A valid
suggestion whose capability flag is `false` is turned into the `null`
no-suggestion result without raising the invalid-structure error. -/
theorem isValidResponse_characterization (r : AIResponse) :
    (isValidResponse r = true ↔
        (r.canImprove.isSome = true ∧ r.title.isSome = true ∧ r.explanation.isSome = true
          ∧ r.searchText.isSome = true ∧ r.replaceText.isSome = true
          ∧ r.confidence.isSome = true
          ∧ (∃ b, r.canImprove = some (JValue.jbool b))
          ∧ (∃ q, r.confidence = some (JValue.jnum q) ∧ 0 ≤ q ∧ q ≤ 1)))
      ∧ (isValidResponse r = true → r.canImprove = some (JValue.jbool false) →
          parseResponseChecked r = Except.ok none) := by
  constructor
  · unfold isValidResponse
    rw [Bool.and_eq_true, Bool.and_eq_true, Bool.and_eq_true, Bool.and_eq_true,
      Bool.and_eq_true, Bool.and_eq_true, Bool.and_eq_true]
    rw [isBoolVal_iff, isNumIn01_iff]
    tauto
  · intro hv hci
    unfold parseResponseChecked
    rw [hv, hci]
    simp

/-- C8 (witness): the amended theorem at a concrete declining suggestion
(all fields present, flag `false`, confidence 1). -/
theorem isValidResponse_characterization_witness :
    (isValidResponse
          ⟨some (JValue.jbool false), some (JValue.jstr "t"), some (JValue.jstr "e"),
            some (JValue.jstr "s"), some (JValue.jstr "r"), some (JValue.jnum 1)⟩ = true ↔
        ((some (JValue.jbool false) : Option JValue).isSome = true
          ∧ (some (JValue.jstr "t") : Option JValue).isSome = true
          ∧ (some (JValue.jstr "e") : Option JValue).isSome = true
          ∧ (some (JValue.jstr "s") : Option JValue).isSome = true
          ∧ (some (JValue.jstr "r") : Option JValue).isSome = true
          ∧ (some (JValue.jnum 1) : Option JValue).isSome = true
          ∧ (∃ b, (some (JValue.jbool false) : Option JValue) = some (JValue.jbool b))
          ∧ (∃ q, (some (JValue.jnum 1) : Option JValue) = some (JValue.jnum q)
              ∧ 0 ≤ q ∧ q ≤ 1)))
      ∧ (isValidResponse
            ⟨some (JValue.jbool false), some (JValue.jstr "t"), some (JValue.jstr "e"),
              some (JValue.jstr "s"), some (JValue.jstr "r"), some (JValue.jnum 1)⟩ = true →
          (some (JValue.jbool false) : Option JValue) = some (JValue.jbool false) →
          parseResponseChecked
              ⟨some (JValue.jbool false), some (JValue.jstr "t"), some (JValue.jstr "e"),
                some (JValue.jstr "s"), some (JValue.jstr "r"), some (JValue.jnum 1)⟩
            = Except.ok none) :=
  isValidResponse_characterization
    ⟨some (JValue.jbool false), some (JValue.jstr "t"), some (JValue.jstr "e"),
      some (JValue.jstr "s"), some (JValue.jstr "r"), some (JValue.jnum 1)⟩

/-- C3 (counterexample).  On a run where branch creation succeeds and the
candidate search returns zero results, the created branch is deleted, but
the returned outcome is `skipped('no_improvement_found')` — the code has no
distinct `no_candidate` reason, contrary to the claim. -/
theorem performNibble_reason_counterexample :
    (performNibble nibbleEnvNoMarker "2025-06-01").1
        = NibbleOutcome.skipped "no_improvement_found"
      ∧ (performNibble nibbleEnvNoMarker "2025-06-01").1
          ≠ NibbleOutcome.skipped "no_candidate"
      ∧ (performNibble nibbleEnvNoMarker "2025-06-01").2
          = [NibbleAction.createRef "nibble/daily-improvement-2025-06-01" "abc123",
             NibbleAction.deleteRef "nibble/daily-improvement-2025-06-01"] := by
  refine ⟨by decide, by decide, by decide⟩

/-- C3 (amended).  When no open nibble PR exists and the candidate search
returns zero results, the workflow's only mutating calls are the creation of
the daily branch followed by its deletion — the branch created in the
invocation is deleted before returning — and the returned outcome is
`skipped('no_improvement_found')`. -/
theorem performNibble_no_candidate_cleanup (env : NibbleEnv) (today : String)
    (hpr : env.openPRs = []) (hsearch : env.searchItems = []) :
    performNibble env today
      = (NibbleOutcome.skipped "no_improvement_found",
         [NibbleAction.createRef (dailyBranchName today) env.headSha,
          NibbleAction.deleteRef (dailyBranchName today)]) := by
  unfold performNibble findAndAnalyzeNibble
  rw [hpr, hsearch]
  simp

/-- C3 (witness): the amended theorem at the concrete empty-search
environment. -/
theorem performNibble_no_candidate_cleanup_witness :
    nibbleEnvNoMarker.openPRs = [] ∧ nibbleEnvNoMarker.searchItems = []
      ∧ performNibble nibbleEnvNoMarker "2025-06-01"
          = (NibbleOutcome.skipped "no_improvement_found",
             [NibbleAction.createRef (dailyBranchName "2025-06-01") nibbleEnvNoMarker.headSha,
              NibbleAction.deleteRef (dailyBranchName "2025-06-01")]) :=
  ⟨rfl, rfl, performNibble_no_candidate_cleanup nibbleEnvNoMarker "2025-06-01" rfl rfl⟩

theorem step_eq_blocked (cfg : RLConfig) (st : RLState) (key : String) (now u : Int)
    (hb : st.blocked key = some u) (hlt : now < u) :
    advancedRateLimiterStep cfg st key now
      = (RLResult.blockedReject (ceilSec (u - now)), st) := by
  unfold advancedRateLimiterStep
  rw [hb]
  simp [hlt]

theorem step_eq_expired (cfg : RLConfig) (st : RLState) (key : String) (now u : Int)
    (hb : st.blocked key = some u) (hge : ¬now < u) :
    advancedRateLimiterStep cfg st key now
      = rateLimiterWindow cfg
          { st with blocked := mset st.blocked key none, violations := mset st.violations key 0 }
          key now := by
  unfold advancedRateLimiterStep
  rw [hb]
  simp [hge]

theorem step_eq_unblocked (cfg : RLConfig) (st : RLState) (key : String) (now : Int)
    (hb : st.blocked key = none) :
    advancedRateLimiterStep cfg st key now = rateLimiterWindow cfg st key now := by
  unfold advancedRateLimiterStep
  rw [hb]

theorem rateLimiterWindow_requests_cases (cfg : RLConfig) (st : RLState) (key : String)
    (now : Int) :
    (rateLimiterWindow cfg st key now).1 = RLResult.admitted
      ∨ (rateLimiterWindow cfg st key now).2.requests = st.requests := by
  unfold rateLimiterWindow
  split
  · right
    split <;> rfl
  · left
    rfl

/-- C10 (confirmed).  A request that the limiter rejects — whether because
the address is blocked or because the window count reached the limit — never
changes the `requests` map: only admitted requests are recorded.  (In the
over-limit branch the source filters the window but does not store it, and
only `violations`/`blockedIPs` are written.) -/
theorem rateLimiter_rejected_not_recorded (cfg : RLConfig) (st : RLState) (key : String)
    (now : Int) (h : (advancedRateLimiterStep cfg st key now).1 ≠ RLResult.admitted) :
    (advancedRateLimiterStep cfg st key now).2.requests = st.requests := by
  cases hb : st.blocked key with
  | some u =>
    by_cases hlt : now < u
    · rw [step_eq_blocked cfg st key now u hb hlt]
    · rw [step_eq_expired cfg st key now u hb hlt] at h ⊢
      rcases rateLimiterWindow_requests_cases cfg
          { st with blocked := mset st.blocked key none,
                    violations := mset st.violations key 0 } key now with hadm | hreq
      · exact absurd hadm h
      · exact hreq
  | none =>
    rw [step_eq_unblocked cfg st key now hb] at h ⊢
    rcases rateLimiterWindow_requests_cases cfg st key now with hadm | hreq
    · exact absurd hadm h
    · exact hreq

/-- C10 (witness): the theorem at a blocked address, whose request is
rejected and leaves the recorded-request map untouched. -/
theorem rateLimiter_rejected_not_recorded_witness :
    (advancedRateLimiterStep rlConfigProd rlStateBlocked "10.0.0.1" 400).1 ≠ RLResult.admitted
      ∧ (advancedRateLimiterStep rlConfigProd rlStateBlocked "10.0.0.1" 400).2.requests
          = rlStateBlocked.requests :=
  ⟨by decide,
    rateLimiter_rejected_not_recorded rlConfigProd rlStateBlocked "10.0.0.1" 400 (by decide)⟩

/-- C6 (confirmed).  For a blocked key: a request strictly before the
expiry is rejected with a strictly positive retry-after and an unchanged
state; a request at or after the expiry first clears the block and resets
the violation counter, then runs ordinary window accounting — in particular,
when the recorded requests within the window are below the limit the request
is admitted, and afterwards the key carries no block, zero violations, and
the admitted request is recorded. -/
theorem rateLimiter_blocked_reject_and_expiry_reset (cfg : RLConfig) (st : RLState)
    (key : String) (now u : Int) (hb : st.blocked key = some u) :
    (now < u →
        advancedRateLimiterStep cfg st key now
            = (RLResult.blockedReject (ceilSec (u - now)), st)
          ∧ 1 ≤ ceilSec (u - now))
      ∧ (u ≤ now →
          ((st.requests key).filter (fun t => now - cfg.windowMs < t)).length < cfg.maxRequests →
            (advancedRateLimiterStep cfg st key now).1 = RLResult.admitted
              ∧ (advancedRateLimiterStep cfg st key now).2.blocked key = none
              ∧ (advancedRateLimiterStep cfg st key now).2.violations key = 0
              ∧ (advancedRateLimiterStep cfg st key now).2.requests key
                  = (st.requests key).filter (fun t => now - cfg.windowMs < t) ++ [now]) := by
  constructor
  · intro hlt
    constructor
    · exact step_eq_blocked cfg st key now u hb hlt
    · unfold ceilSec
      omega
  · intro hge hlen
    rw [step_eq_expired cfg st key now u hb (by omega)]
    unfold rateLimiterWindow
    rw [if_neg (Nat.not_le.mpr hlen)]
    refine ⟨rfl, ?_, ?_, ?_⟩
    · simp [mset]
    · simp [mset]
    · simp [mset]

/-- C6 (witness): the theorem at the concrete blocked state, instantiated
once before the expiry (rejected, positive retry-after) and once after it
(cleared, reset, admitted). -/
theorem rateLimiter_blocked_reject_and_expiry_reset_witness :
    rlStateBlocked.blocked "10.0.0.1" = some 1000
      ∧ ((400 : Int) < 1000 →
          advancedRateLimiterStep rlConfigProd rlStateBlocked "10.0.0.1" 400
              = (RLResult.blockedReject (ceilSec (1000 - 400)), rlStateBlocked)
            ∧ 1 ≤ ceilSec (1000 - 400))
      ∧ ((1000 : Int) ≤ 2000 →
          ((rlStateBlocked.requests "10.0.0.1").filter
              (fun t => 2000 - rlConfigProd.windowMs < t)).length < rlConfigProd.maxRequests →
            (advancedRateLimiterStep rlConfigProd rlStateBlocked "10.0.0.1" 2000).1
                = RLResult.admitted
              ∧ (advancedRateLimiterStep rlConfigProd rlStateBlocked "10.0.0.1" 2000).2.blocked
                  "10.0.0.1" = none
              ∧ (advancedRateLimiterStep rlConfigProd rlStateBlocked "10.0.0.1" 2000).2.violations
                  "10.0.0.1" = 0
              ∧ (advancedRateLimiterStep rlConfigProd rlStateBlocked "10.0.0.1" 2000).2.requests
                  "10.0.0.1"
                  = (rlStateBlocked.requests "10.0.0.1").filter
                      (fun t => 2000 - rlConfigProd.windowMs < t) ++ [2000]) :=
  ⟨by decide,
    (rateLimiter_blocked_reject_and_expiry_reset rlConfigProd rlStateBlocked "10.0.0.1" 400 1000
        (by decide)).1,
    (rateLimiter_blocked_reject_and_expiry_reset rlConfigProd rlStateBlocked "10.0.0.1" 2000 1000
        (by decide)).2⟩

theorem runRequests_fresh_aux (cfg : RLConfig) (k : String) :
    ∀ (ts acc : List Int) (st : RLState),
      st.requests k = acc → st.blocked k = none →
      (∀ a ∈ acc, ∀ t ∈ ts, t - cfg.windowMs < a) →
      (∀ t ∈ ts, ∀ u ∈ ts, u - cfg.windowMs < t) →
      acc.length + ts.length = cfg.maxRequests + 1 →
      ts ≠ [] →
      (runRequests cfg k st ts).1
        = List.replicate (ts.length - 1) RLResult.admitted
            ++ [RLResult.tooMany (ceilSec cfg.windowMs)] := by
  intro ts
  induction ts with
  | nil => intro acc st _ _ _ _ _ hne; exact absurd rfl hne
  | cons t ts' ih =>
    intro acc st hreq hblk hacc hspan hlen _
    have hfilter : (st.requests k).filter (fun x => t - cfg.windowMs < x) = acc := by
      rw [hreq]
      apply List.filter_eq_self.mpr
      intro a ha
      exact decide_eq_true (hacc a ha t (List.mem_cons_self t ts'))
    have hstep : advancedRateLimiterStep cfg st k t = rateLimiterWindow cfg st k t :=
      step_eq_unblocked cfg st k t hblk
    cases ts' with
    | nil =>
      have hwin1 : (rateLimiterWindow cfg st k t).1
          = RLResult.tooMany (ceilSec cfg.windowMs) := by
        unfold rateLimiterWindow
        rw [hfilter, if_pos (by simp at hlen; omega)]
      simp only [runRequests, hstep]
      rw [hwin1]
      rfl
    | cons t2 ts'' =>
      have hlt : acc.length < cfg.maxRequests := by
        simp [List.length_cons] at hlen
        omega
      have hwin : rateLimiterWindow cfg st k t
          = (RLResult.admitted,
             { st with requests := mset st.requests k (acc ++ [t]) }) := by
        unfold rateLimiterWindow
        rw [hfilter, if_neg (Nat.not_le.mpr hlt)]
      have hrec := ih (acc ++ [t]) { st with requests := mset st.requests k (acc ++ [t]) }
        (mset_same st.requests k (acc ++ [t]))
        hblk
        (by
          intro a ha u hu
          rcases List.mem_append.mp ha with hL | hR
          · exact hacc a hL u (List.mem_cons_of_mem t hu)
          · rw [List.mem_singleton.mp hR]
            exact hspan t (List.mem_cons_self t (t2 :: ts'')) u (List.mem_cons_of_mem t hu))
        (by
          intro x hx y hy
          exact hspan x (List.mem_cons_of_mem t hx) y (List.mem_cons_of_mem t hy))
        (by simp at hlen ⊢; omega)
        (by simp)
      simp only [runRequests, hstep, hwin]
      simp only [runRequests] at hrec
      rw [hrec]
      simp [List.replicate_succ]

/-- C5 (confirmed).  For a key with no block and no recorded requests,
`maxRequests + 1` requests all lying within one `windowMs` of each other are
answered: the first `maxRequests` admitted, and exactly the last one
rejected with the too-many-requests signal. -/
theorem rateLimiter_window_admits_then_rejects (cfg : RLConfig) (k : String) (st : RLState)
    (ts : List Int)
    (hreq : st.requests k = []) (hblk : st.blocked k = none)
    (hlen : ts.length = cfg.maxRequests + 1)
    (hspan : ∀ t ∈ ts, ∀ u ∈ ts, u - cfg.windowMs < t) :
    (runRequests cfg k st ts).1
      = List.replicate cfg.maxRequests RLResult.admitted
          ++ [RLResult.tooMany (ceilSec cfg.windowMs)] := by
  have hne : ts ≠ [] := by
    intro h
    rw [h] at hlen
    simp at hlen
  have := runRequests_fresh_aux cfg k ts [] st hreq hblk (by simp) hspan (by simpa using hlen) hne
  rw [this, hlen]
  simp

/-- C5 (witness): the theorem at `maxRequests = 2`, three requests at times
0, 1, 2 inside a 1000 ms window from a fresh state. -/
theorem rateLimiter_window_admits_then_rejects_witness :
    rlStateFresh.requests "10.0.0.1" = [] ∧ rlStateFresh.blocked "10.0.0.1" = none
      ∧ ([0, 1, 2] : List Int).length = (⟨2, 1000, 5000, 3⟩ : RLConfig).maxRequests + 1
      ∧ (∀ t ∈ ([0, 1, 2] : List Int), ∀ u ∈ ([0, 1, 2] : List Int),
          u - (⟨2, 1000, 5000, 3⟩ : RLConfig).windowMs < t)
      ∧ (runRequests ⟨2, 1000, 5000, 3⟩ "10.0.0.1" rlStateFresh [0, 1, 2]).1
          = List.replicate 2 RLResult.admitted
              ++ [RLResult.tooMany (ceilSec (⟨2, 1000, 5000, 3⟩ : RLConfig).windowMs)] :=
  ⟨rfl, rfl, by decide, by decide,
    rateLimiter_window_admits_then_rejects ⟨2, 1000, 5000, 3⟩ "10.0.0.1" rlStateFresh [0, 1, 2]
      rfl rfl (by decide) (by decide)⟩

theorem foldl_append_map {α β : Type} (f : α → β) :
    ∀ (L : List α) (init : List β),
      L.foldl (fun acc x => acc ++ [f x]) init = init ++ L.map f := by
  intro L
  induction L with
  | nil => intro init; simp
  | cons x xs ih =>
    intro init
    simp only [List.foldl_cons, List.map_cons]
    rw [ih]
    simp

theorem runNightly_foldl_eq (getOcto : Nat → Except String Unit)
    (step : Nat → String → String → Except String NibbleOutcome) :
    ∀ (L : List Installation) (init : List NightlyEvent),
      L.foldl
          (fun acc inst =>
            match getOcto inst.id with
            | Except.error e => acc ++ [NightlyEvent.instError inst.id e]
            | Except.ok _ =>
              acc ++ inst.repositories.foldl
                (fun acc2 r =>
                  match step inst.id (ownerOf r.full_name) (repoNameOf r.full_name) with
                  | Except.ok _ => acc2 ++ [NightlyEvent.nibbled r.full_name]
                  | Except.error e => acc2 ++ [NightlyEvent.repoError r.full_name e])
                [])
          init
        = init ++ L.flatMap (nightlyEventsFor getOcto step) := by
  intro L
  induction L with
  | nil => intro init; simp
  | cons inst rest ih =>
    intro init
    simp only [List.foldl_cons, List.flatMap_cons]
    rw [ih]
    cases hg : getOcto inst.id with
    | error e =>
      simp [nightlyEventsFor, hg]
    | ok _ =>
      have hmap := foldl_append_map
        (fun r : RepoRef =>
          match step inst.id (ownerOf r.full_name) (repoNameOf r.full_name) with
          | Except.ok _ => NightlyEvent.nibbled r.full_name
          | Except.error e => NightlyEvent.repoError r.full_name e)
        inst.repositories []
      simp only [List.nil_append] at hmap
      simp [nightlyEventsFor, hg]
      rw [← hmap]
      have hfun :
          (fun (acc2 : List NightlyEvent) (r : RepoRef) =>
            match step inst.id (ownerOf r.full_name) (repoNameOf r.full_name) with
            | Except.ok _ => acc2 ++ [NightlyEvent.nibbled r.full_name]
            | Except.error e => acc2 ++ [NightlyEvent.repoError r.full_name e])
          = (fun (acc2 : List NightlyEvent) (r : RepoRef) =>
              acc2
                ++ [match step inst.id (ownerOf r.full_name) (repoNameOf r.full_name) with
                    | Except.ok _ => NightlyEvent.nibbled r.full_name
                    | Except.error e => NightlyEvent.repoError r.full_name e]) := by
        funext acc2 r
        cases step inst.id (ownerOf r.full_name) (repoNameOf r.full_name) <;> rfl
      rw [hfun]

/-- C7 (counterexample).  The claim states a per-repository error is
converted to a failed outcome returned to the caller.  On a concrete run
where the step for `acme/alpha` throws, the nightly runner returns the unit
value (the JS function returns `undefined`): the error appears only as a
logged event, no failed-outcome value is returned to any caller, and the
run nevertheless continues with `acme/beta`. -/
theorem runNightlyNibbles_no_failed_outcome_counterexample :
    runNightlyNibbles nightlyOcto nightlyStep [nightlyInstA]
      = ((), [NightlyEvent.repoError "acme/alpha" "boom",
              NightlyEvent.nibbled "acme/beta"]) := by
  decide

/-- C7 (amended).  Per-repository errors are caught at the per-repository
boundary and logged, and the run continues: the nightly runner returns unit
together with a log holding exactly one event per repository of every
enabled installation (an error event for a throwing step), so no
per-repository error propagates and no failed-outcome value is returned.
In particular a throwing repository contributes its error event while every
other repository of the batch is still processed. -/
theorem runNightlyNibbles_isolation (getOcto : Nat → Except String Unit)
    (step : Nat → String → String → Except String NibbleOutcome)
    (insts : List Installation) :
    runNightlyNibbles getOcto step insts
        = ((), (insts.filter (fun i => i.enabled)).flatMap (nightlyEventsFor getOcto step))
      ∧ (∀ inst ∈ insts, inst.enabled = true → getOcto inst.id = Except.ok () →
          ∀ r ∈ inst.repositories, ∀ e,
            step inst.id (ownerOf r.full_name) (repoNameOf r.full_name) = Except.error e →
            NightlyEvent.repoError r.full_name e ∈ (runNightlyNibbles getOcto step insts).2) := by
  have hmain : runNightlyNibbles getOcto step insts
      = ((), (insts.filter (fun i => i.enabled)).flatMap (nightlyEventsFor getOcto step)) := by
    unfold runNightlyNibbles getAllEnabledInstallations
    rw [runNightly_foldl_eq getOcto step (insts.filter (fun i => i.enabled)) []]
    simp
  refine ⟨hmain, ?_⟩
  intro inst hinst henabled hocto r hr e hstep
  rw [hmain]
  simp only [List.mem_flatMap]
  refine ⟨inst, List.mem_filter.mpr ⟨hinst, henabled⟩, ?_⟩
  unfold nightlyEventsFor
  rw [hocto]
  simp only [List.mem_map]
  exact ⟨r, hr, by rw [hstep]⟩

/-- C7 (witness): the amended theorem at the concrete one-installation run
whose first repository's step throws. -/
theorem runNightlyNibbles_isolation_witness :
    (runNightlyNibbles nightlyOcto nightlyStep [nightlyInstA]
        = ((), ([nightlyInstA].filter (fun i => i.enabled)).flatMap
            (nightlyEventsFor nightlyOcto nightlyStep)))
      ∧ (∀ inst ∈ [nightlyInstA], inst.enabled = true → nightlyOcto inst.id = Except.ok () →
          ∀ r ∈ inst.repositories, ∀ e,
            nightlyStep inst.id (ownerOf r.full_name) (repoNameOf r.full_name) = Except.error e →
            NightlyEvent.repoError r.full_name e
              ∈ (runNightlyNibbles nightlyOcto nightlyStep [nightlyInstA]).2) :=
  runNightlyNibbles_isolation nightlyOcto nightlyStep [nightlyInstA]

theorem scanAux_skip (pat : Str) :
    ∀ (l : Str) (s : Nat), scanAux pat s l = scanCount pat (l.drop s) := by
  intro l
  induction l with
  | nil => intro s; cases s <;> rfl
  | cons c rest ih =>
    intro s
    cases s with
    | zero => rfl
    | succ s' =>
      show scanAux pat s' rest = scanCount pat ((c :: rest).drop (s' + 1))
      rw [List.drop_succ_cons]
      exact ih s'

theorem scanCount_cons (pat : Str) (c : Char) (rest : Str) :
    scanCount pat (c :: rest)
      = if pat.isPrefixOf (c :: rest) then scanCount pat (rest.drop (pat.length - 1)) + 1
        else scanCount pat rest := by
  show scanAux pat 0 (c :: rest) = _
  rw [scanAux]
  split
  · rw [scanAux_skip]
    omega
  · rfl

theorem occursAtB_nil (pat : Str) (hp : pat ≠ []) (i : Nat) : occursAtB [] pat i = false := by
  unfold occursAtB
  cases pat with
  | nil => exact absurd rfl hp
  | cons p ps => simp [List.isPrefixOf]

theorem occursAtB_succ (c : Char) (rest pat : Str) (i : Nat) :
    occursAtB (c :: rest) pat (i + 1) = occursAtB rest pat i := by
  unfold occursAtB
  rw [List.drop_succ_cons]

theorem occursAtB_zero (content pat : Str) :
    occursAtB content pat 0 = pat.isPrefixOf content := by
  unfold occursAtB
  rw [List.drop_zero]

theorem occursAtB_drop (l pat : Str) (m j : Nat) :
    occursAtB (l.drop m) pat j = occursAtB l pat (m + j) := by
  unfold occursAtB
  rw [List.drop_drop]

theorem scanCount_eq_zero (pat : Str) (hp : pat ≠ []) :
    ∀ l : Str, scanCount pat l = 0 ↔ ∀ i, occursAtB l pat i = false := by
  intro l
  induction l with
  | nil =>
    constructor
    · intro _ i
      exact occursAtB_nil pat hp i
    · intro _
      rfl
  | cons c rest ih =>
    rw [scanCount_cons]
    by_cases hpre : pat.isPrefixOf (c :: rest) = true
    · rw [if_pos hpre]
      constructor
      · intro h
        exact absurd h (by omega)
      · intro hall
        have h0 := hall 0
        rw [occursAtB_zero] at h0
        rw [hpre] at h0
        exact absurd h0 (by simp)
    · rw [if_neg hpre]
      rw [ih]
      constructor
      · intro h i
        cases i with
        | zero =>
          rw [occursAtB_zero]
          exact Bool.not_eq_true _ ▸ (by simpa using hpre)
        | succ j =>
          rw [occursAtB_succ]
          exact h j
      · intro h j
        have := h (j + 1)
        rw [occursAtB_succ] at this
        exact this

theorem scanCount_eq_one (pat : Str) (hp : pat ≠ []) :
    ∀ l : Str, scanCount pat l = 1 ↔
      ∃ i, occursAtB l pat i = true
        ∧ (∀ j, j < i → occursAtB l pat j = false)
        ∧ (∀ j, i + pat.length ≤ j → occursAtB l pat j = false) := by
  have hlen1 : 1 ≤ pat.length := List.length_pos.mpr hp
  intro l
  induction l with
  | nil =>
    constructor
    · intro h
      exact absurd h (by simp [scanCount, scanAux])
    · rintro ⟨i, hocc, -, -⟩
      rw [occursAtB_nil pat hp i] at hocc
      exact absurd hocc (by simp)
  | cons c rest ih =>
    rw [scanCount_cons]
    by_cases hpre : pat.isPrefixOf (c :: rest) = true
    · rw [if_pos hpre]
      constructor
      · intro h
        have hz : scanCount pat (rest.drop (pat.length - 1)) = 0 := by omega
        have htail := (scanCount_eq_zero pat hp (rest.drop (pat.length - 1))).mp hz
        refine ⟨0, ?_, ?_, ?_⟩
        · rw [occursAtB_zero]
          exact hpre
        · intro j hj
          omega
        · intro j hj
          have hj1 : j = (j - 1) + 1 := by omega
          rw [hj1, occursAtB_succ]
          have hj2 : j - 1 = (pat.length - 1) + (j - pat.length) := by omega
          have := htail (j - pat.length)
          rw [occursAtB_drop] at this
          rw [hj2]
          exact this
      · rintro ⟨i, hocc, hmin, htail⟩
        have hi0 : i = 0 := by
          by_contra hne
          have := hmin 0 (by omega)
          rw [occursAtB_zero, hpre] at this
          exact absurd this (by simp)
        subst hi0
        have hz : scanCount pat (rest.drop (pat.length - 1)) = 0 := by
          rw [scanCount_eq_zero pat hp]
          intro j
          rw [occursAtB_drop]
          have hj : (pat.length - 1) + j + 1 = pat.length + j := by omega
          have := htail (pat.length + j) (by omega)
          have hstep : occursAtB (c :: rest) pat (pat.length + j)
              = occursAtB rest pat ((pat.length - 1) + j) := by
            rw [← hj, occursAtB_succ]
          rw [hstep] at this
          exact this
        omega
    · rw [if_neg hpre]
      rw [ih]
      have hfalse : pat.isPrefixOf (c :: rest) = false := by
        cases h2 : pat.isPrefixOf (c :: rest)
        · rfl
        · exact absurd h2 hpre
      constructor
      · rintro ⟨i, hocc, hmin, htail⟩
        refine ⟨i + 1, ?_, ?_, ?_⟩
        · rw [occursAtB_succ]
          exact hocc
        · intro j hj
          cases j with
          | zero =>
            rw [occursAtB_zero]
            exact hfalse
          | succ j' =>
            rw [occursAtB_succ]
            exact hmin j' (by omega)
        · intro j hj
          have hj1 : j = (j - 1) + 1 := by omega
          rw [hj1, occursAtB_succ]
          exact htail (j - 1) (by omega)
      · rintro ⟨i, hocc, hmin, htail⟩
        cases i with
        | zero =>
          rw [occursAtB_zero, hfalse] at hocc
          exact absurd hocc (by simp)
        | succ i' =>
          refine ⟨i', ?_, ?_, ?_⟩
          · rw [← occursAtB_succ c rest pat i']
            exact hocc
          · intro j hj
            rw [← occursAtB_succ c rest pat j]
            exact hmin (j + 1) (by omega)
          · intro j hj
            rw [← occursAtB_succ c rest pat j]
            exact htail (j + 1) (by omega)

/-- C2 (counterexample).  The claim states the validator is true exactly
when the search text occurs as an exact substring exactly once; but the
source counts non-overlapping regex matches.  In content `aaa` the text `aa`
occurs at two positions (0 and 1), yet the validator accepts it. -/
theorem validateSearchText_overlap_counterexample :
    validateSearchText "aaa".toList "aa".toList = true
      ∧ occCount "aaa".toList "aa".toList = 2 := by
  constructor
  · decide
  · decide

/-- C2 (amended).  For a non-empty search text the validator is true
exactly when the greedy left-to-right scan finds exactly one non-overlapping
match: there is an occurrence position `i` with no occurrence before it and
none at or beyond `i + length` (occurrences overlapping the counted one are
ignored, so `aa` in `aaa` validates although it occurs at two positions). -/
theorem validateSearchText_nonoverlapping_unique (content searchText : Str)
    (hp : searchText ≠ []) :
    validateSearchText content searchText = true ↔
      ∃ i, occursAtB content searchText i = true
        ∧ (∀ j, j < i → occursAtB content searchText j = false)
        ∧ (∀ j, i + searchText.length ≤ j → occursAtB content searchText j = false) := by
  unfold validateSearchText regexMatchCount
  rw [if_neg (by simpa [List.isEmpty_iff] using hp)]
  rw [Nat.beq_eq_true_eq]
  exact scanCount_eq_one searchText hp content

/-- C2 (witness): the amended theorem at content `xyx` and search text `y`,
which occurs exactly once (at position 1). -/
theorem validateSearchText_nonoverlapping_unique_witness :
    ("y".toList ≠ ([] : Str))
      ∧ (validateSearchText "xyx".toList "y".toList = true ↔
          ∃ i, occursAtB "xyx".toList "y".toList i = true
            ∧ (∀ j, j < i → occursAtB "xyx".toList "y".toList j = false)
            ∧ (∀ j, i + ("y".toList : Str).length ≤ j →
                occursAtB "xyx".toList "y".toList j = false)) :=
  ⟨by decide, validateSearchText_nonoverlapping_unique "xyx".toList "y".toList (by decide)⟩

theorem keepLine_false (lines : List Str) (nib line : Str)
    (h : trimChars line = trimChars nib) : keepLine lines nib line = false := by
  unfold keepLine
  rw [if_pos h]

theorem keepLine_true (lines : List Str) (nib line : Str)
    (h : trimChars line ≠ trimChars nib) : keepLine lines nib line = true := by
  unfold keepLine
  rw [if_neg h]
  split
  · split
    · split <;> rfl
    · rfl
  · rfl

theorem removeNibbleComment_filter (content nib : Str) :
    removeNibbleComment content nib = joinNL (markerFiltered content nib) := by
  unfold removeNibbleComment markerFiltered
  congr 1
  apply List.filter_congr
  intro l _
  by_cases h : trimChars l = trimChars nib
  · rw [keepLine_false (splitNL content) nib l h]
    simp [h]
  · rw [keepLine_true (splitNL content) nib l h]
    simp [h]

theorem getSubstitution_noDollar (matched before after : Str) :
    ∀ repl : Str, noDollar repl = true → getSubstitution matched before after repl = repl := by
  intro repl
  induction repl with
  | nil => intro _; rfl
  | cons c rest ih =>
    intro h
    unfold noDollar at h
    simp only [List.all_cons, Bool.and_eq_true, decide_eq_true_eq] at h
    unfold getSubstitution
    rw [if_neg h.1]
    rw [ih (by unfold noDollar; simpa using h.2)]

theorem jsReplaceFirst_noDollar (content search repl : Str) (h : noDollar repl = true) :
    jsReplaceFirst content search repl = literalReplaceFirst content search repl := by
  unfold jsReplaceFirst literalReplaceFirst
  cases firstIndexOf content search with
  | none => rfl
  | some i =>
    show content.take i
          ++ getSubstitution search (content.take i) (content.drop (i + search.length)) repl
          ++ content.drop (i + search.length)
        = content.take i ++ repl ++ content.drop (i + search.length)
    rw [getSubstitution_noDollar search (content.take i) (content.drop (i + search.length))
      repl h]

theorem validate_firstIndexOf_isSome (content pat : Str)
    (h : validateSearchText content pat = true) : (firstIndexOf content pat).isSome = true := by
  by_cases hp : pat = []
  · subst hp
    apply List.find?_isSome.mpr
    refine ⟨0, List.mem_range.mpr (by omega), ?_⟩
    unfold occursAtB
    simp [List.isPrefixOf]
  · obtain ⟨i, hocc, -, -⟩ :=
      (validateSearchText_nonoverlapping_unique content pat hp).mp h
    apply List.find?_isSome.mpr
    refine ⟨i, List.mem_range.mpr ?_, hocc⟩
    unfold occursAtB at hocc
    have hpref := List.isPrefixOf_iff_prefix.mp hocc
    have hle := hpref.length_le
    have hplen : 1 ≤ pat.length := List.length_pos.mpr hp
    have hdrop : (content.drop i).length = content.length - i := List.length_drop i content
    omega

/-- C4 (counterexample).  The claim states applying the improvement performs
the textual substitution of the search text by the replacement text.  But JS
`String.prototype.replace` expands dollar escapes in the replacement: for an
accepted improvement with replacement text `$&$&`, the performed edit
duplicates the matched text instead of inserting the replacement text
literally, so the result differs from the claimed literal substitution. -/
theorem applyAIImprovement_dollar_counterexample :
    validateSearchText dollarImp.fullContent dollarImp.searchText = true
      ∧ applyAIImprovement dollarImp = "abab\n".toList
      ∧ removeNibbleComment
            (literalReplaceFirst dollarImp.fullContent dollarImp.searchText
              dollarImp.replaceText)
            dollarImp.originalNibble
          = ('$' :: '&' :: '$' :: '&' :: '\n' :: [])
      ∧ applyAIImprovement dollarImp
          ≠ removeNibbleComment
              (literalReplaceFirst dollarImp.fullContent dollarImp.searchText
                dollarImp.replaceText)
              dollarImp.originalNibble := by
  refine ⟨by decide, by decide, by decide, by decide⟩

/-- C4 (amended).  For an accepted improvement (search text validated to
occur exactly once) with a non-blank marker comment: the search text indeed
occurs, the applied content equals the dollar-expanded substitution followed
by removal of every line whose trimmed text equals the trimmed marker; the
surviving lines are a sublist of the substituted content's lines (original
order, lines unchanged), every line whose trimmed text differs from the
marker — in particular every blank line — is retained, and when the
replacement text contains no dollar character the substitution is the
literal textual substitution of the claim. -/
theorem applyAIImprovement_substitute_and_remove_marker (imp : Improvement)
    (haccept : validateSearchText imp.fullContent imp.searchText = true)
    (hnib : trimChars imp.originalNibble ≠ []) :
    (firstIndexOf imp.fullContent imp.searchText).isSome = true
      ∧ applyAIImprovement imp
          = joinNL (markerFiltered
              (jsReplaceFirst imp.fullContent imp.searchText imp.replaceText)
              imp.originalNibble)
      ∧ (markerFiltered (jsReplaceFirst imp.fullContent imp.searchText imp.replaceText)
            imp.originalNibble).Sublist
          (splitNL (jsReplaceFirst imp.fullContent imp.searchText imp.replaceText))
      ∧ (∀ l ∈ splitNL (jsReplaceFirst imp.fullContent imp.searchText imp.replaceText),
          trimChars l ≠ trimChars imp.originalNibble →
            l ∈ markerFiltered (jsReplaceFirst imp.fullContent imp.searchText imp.replaceText)
                  imp.originalNibble)
      ∧ (∀ l ∈ markerFiltered (jsReplaceFirst imp.fullContent imp.searchText imp.replaceText)
            imp.originalNibble, trimChars l ≠ trimChars imp.originalNibble)
      ∧ (∀ l ∈ splitNL (jsReplaceFirst imp.fullContent imp.searchText imp.replaceText),
          trimChars l = [] →
            l ∈ markerFiltered (jsReplaceFirst imp.fullContent imp.searchText imp.replaceText)
                  imp.originalNibble)
      ∧ (noDollar imp.replaceText = true →
          jsReplaceFirst imp.fullContent imp.searchText imp.replaceText
            = literalReplaceFirst imp.fullContent imp.searchText imp.replaceText) := by
  refine ⟨validate_firstIndexOf_isSome imp.fullContent imp.searchText haccept, ?_, ?_, ?_, ?_, ?_, ?_⟩
  · unfold applyAIImprovement
    exact removeNibbleComment_filter
      (jsReplaceFirst imp.fullContent imp.searchText imp.replaceText) imp.originalNibble
  · exact List.filter_sublist _
  · intro l hl hne
    unfold markerFiltered
    refine List.mem_filter.mpr ⟨hl, ?_⟩
    simp [hne]
  · intro l hl
    have := (List.mem_filter.mp hl).2
    simpa using this
  · intro l hl hblank
    unfold markerFiltered
    refine List.mem_filter.mpr ⟨hl, ?_⟩
    have hne : trimChars l ≠ trimChars imp.originalNibble := by
      rw [hblank]
      intro hcontra
      exact hnib hcontra.symm
    simp [hne]
  · intro hnd
    exact jsReplaceFirst_noDollar imp.fullContent imp.searchText imp.replaceText hnd

/-- C4 (witness): the amended theorem at a concrete accepted improvement
with a dollar-free replacement and a blank line between code lines. -/
theorem applyAIImprovement_substitute_and_remove_marker_witness :
    validateSearchText plainImp.fullContent plainImp.searchText = true
      ∧ trimChars plainImp.originalNibble ≠ []
      ∧ ((firstIndexOf plainImp.fullContent plainImp.searchText).isSome = true
          ∧ applyAIImprovement plainImp
              = joinNL (markerFiltered
                  (jsReplaceFirst plainImp.fullContent plainImp.searchText plainImp.replaceText)
                  plainImp.originalNibble)
          ∧ (markerFiltered (jsReplaceFirst plainImp.fullContent plainImp.searchText
                plainImp.replaceText) plainImp.originalNibble).Sublist
              (splitNL (jsReplaceFirst plainImp.fullContent plainImp.searchText
                plainImp.replaceText))
          ∧ (∀ l ∈ splitNL (jsReplaceFirst plainImp.fullContent plainImp.searchText
                plainImp.replaceText),
              trimChars l ≠ trimChars plainImp.originalNibble →
                l ∈ markerFiltered (jsReplaceFirst plainImp.fullContent plainImp.searchText
                      plainImp.replaceText) plainImp.originalNibble)
          ∧ (∀ l ∈ markerFiltered (jsReplaceFirst plainImp.fullContent plainImp.searchText
                plainImp.replaceText) plainImp.originalNibble,
              trimChars l ≠ trimChars plainImp.originalNibble)
          ∧ (∀ l ∈ splitNL (jsReplaceFirst plainImp.fullContent plainImp.searchText
                plainImp.replaceText),
              trimChars l = [] →
                l ∈ markerFiltered (jsReplaceFirst plainImp.fullContent plainImp.searchText
                      plainImp.replaceText) plainImp.originalNibble)
          ∧ (noDollar plainImp.replaceText = true →
              jsReplaceFirst plainImp.fullContent plainImp.searchText plainImp.replaceText
                = literalReplaceFirst plainImp.fullContent plainImp.searchText
                    plainImp.replaceText)) :=
  ⟨by decide, by decide,
    applyAIImprovement_substitute_and_remove_marker plainImp (by decide) (by decide)⟩

theorem insertByCreatedDesc_perm (x : Installation) (l : List Installation) :
    (insertByCreatedDesc x l).Perm (x :: l) := by
  induction l with
  | nil => exact List.Perm.refl _
  | cons y ys ih =>
    unfold insertByCreatedDesc
    split
    · exact List.Perm.refl _
    · exact (ih.cons y).trans (List.Perm.swap x y ys)

theorem sortByCreatedDesc_perm (l : List Installation) : (sortByCreatedDesc l).Perm l := by
  induction l with
  | nil => exact List.Perm.refl _
  | cons x xs ih =>
    unfold sortByCreatedDesc
    exact (insertByCreatedDesc_perm x (sortByCreatedDesc xs)).trans (ih.cons x)

theorem insertByCreatedDesc_pairwise (x : Installation) (l : List Installation)
    (hp : List.Pairwise (fun a b => b.createdAt ≤ a.createdAt) l) :
    List.Pairwise (fun a b => b.createdAt ≤ a.createdAt) (insertByCreatedDesc x l) := by
  induction l with
  | nil =>
    unfold insertByCreatedDesc
    simp
  | cons y ys ih =>
    obtain ⟨hy, hys⟩ := List.pairwise_cons.mp hp
    unfold insertByCreatedDesc
    split
    · refine List.pairwise_cons.mpr ⟨?_, hp⟩
      intro z hz
      rcases List.mem_cons.mp hz with hzy | hzys
      · subst hzy; omega
      · have := hy z hzys
        omega
    · refine List.pairwise_cons.mpr ⟨?_, ih hys⟩
      intro z hz
      have hz' := (insertByCreatedDesc_perm x ys).mem_iff.mp hz
      rcases List.mem_cons.mp hz' with hzx | hzys
      · subst hzx; omega
      · exact hy z hzys

theorem sortByCreatedDesc_pairwise (l : List Installation) :
    List.Pairwise (fun a b => b.createdAt ≤ a.createdAt) (sortByCreatedDesc l) := by
  induction l with
  | nil => simp [sortByCreatedDesc]
  | cons x xs ih =>
    unfold sortByCreatedDesc
    exact insertByCreatedDesc_pairwise x (sortByCreatedDesc xs) ih

theorem mem_drop_one_sorted (g : List Installation) (hnd : g.Nodup)
    (hinj : ∀ a ∈ g, ∀ b ∈ g, a.createdAt = b.createdAt → a = b) (x : Installation) :
    x ∈ (sortByCreatedDesc g).drop 1 ↔ x ∈ g ∧ ∃ y ∈ g, x.createdAt < y.createdAt := by
  have hperm := sortByCreatedDesc_perm g
  have hpw := sortByCreatedDesc_pairwise g
  cases hs : sortByCreatedDesc g with
  | nil =>
    rw [hs] at hperm
    have hg : g = [] := (hperm.symm).eq_nil
    subst hg
    simp
  | cons h t =>
    rw [hs] at hperm hpw
    show x ∈ t ↔ _
    have hnd' : (h :: t).Nodup := (hperm.nodup_iff).mpr hnd
    constructor
    · intro hx
      have hxg : x ∈ g := hperm.mem_iff.mp (List.mem_cons_of_mem h hx)
      have hhg : h ∈ g := hperm.mem_iff.mp (List.mem_cons_self h t)
      have hle : x.createdAt ≤ h.createdAt := (List.pairwise_cons.mp hpw).1 x hx
      have hxh : x ≠ h := by
        intro he
        subst he
        exact (List.nodup_cons.mp hnd').1 hx
      refine ⟨hxg, h, hhg, ?_⟩
      rcases lt_or_eq_of_le hle with hlt | heq
      · exact hlt
      · exact absurd (hinj x hxg h hhg heq) hxh
    · rintro ⟨hxg, y, hyg, hlt⟩
      have hx' : x ∈ h :: t := hperm.mem_iff.mpr hxg
      rcases List.mem_cons.mp hx' with hxh | hxt
      · subst hxh
        have hy' : y ∈ x :: t := hperm.mem_iff.mpr hyg
        rcases List.mem_cons.mp hy' with hyx | hyt
        · rw [hyx] at hlt
          exact absurd hlt (lt_irrefl _)
        · have := (List.pairwise_cons.mp hpw).1 y hyt
          omega
      · exact hxt

theorem groupVal_addToGroup (acc : List (String × List Installation)) (k : String)
    (i : Installation) (n : String) :
    groupVal (addToGroup acc k i) n
      = if n = k then groupVal acc n ++ [i] else groupVal acc n := by
  induction acc with
  | nil =>
    by_cases h : n = k
    · subst h
      simp [addToGroup, groupVal]
    · have h' : ¬k = n := fun hh => h hh.symm
      simp [addToGroup, groupVal, h, h']
  | cons e rest ih =>
    unfold addToGroup
    by_cases h1 : e.1 = k
    · rw [if_pos h1]
      by_cases h2 : n = k
      · subst h2
        simp [groupVal, h1]
      · have h3 : e.1 ≠ n := by rw [h1]; exact fun hh => h2 hh.symm
        simp [groupVal, h3, h2]
    · rw [if_neg h1]
      by_cases h3 : e.1 = n
      · have h4 : ¬n = k := by rw [← h3]; exact fun hh => h1 hh
        simp [groupVal, h3, h4]
      · simp [groupVal, h3, ih]

theorem groupVal_repos_foldl (i : Installation) (n : String) :
    ∀ (repos : List RepoRef) (acc : List (String × List Installation)),
      groupVal (repos.foldl (fun a r => addToGroup a r.full_name i) acc) n
        = groupVal acc n
            ++ List.replicate ((repos.map (fun r => r.full_name)).count n) i := by
  intro repos
  induction repos with
  | nil => intro acc; simp
  | cons r rest ih =>
    intro acc
    simp only [List.foldl_cons, List.map_cons]
    rw [ih (addToGroup acc r.full_name i)]
    rw [groupVal_addToGroup]
    by_cases h : n = r.full_name
    · rw [if_pos h]
      have hc : (r.full_name :: rest.map (fun r => r.full_name)).count n
          = (rest.map (fun r => r.full_name)).count n + 1 := by
        rw [h]
        exact List.count_cons_self _ _
      rw [hc, List.append_assoc, List.singleton_append, ← List.replicate_succ]
    · rw [if_neg h]
      have hc : (r.full_name :: rest.map (fun r => r.full_name)).count n
          = (rest.map (fun r => r.full_name)).count n := by
        exact List.count_cons_of_ne h _
      rw [hc]

theorem groupVal_buildGroups_aux (n : String) :
    ∀ (insts : List Installation) (acc : List (String × List Installation)),
      groupVal
          (insts.foldl
            (fun a inst =>
              inst.repositories.foldl (fun a2 r => addToGroup a2 r.full_name inst) a)
            acc) n
        = groupVal acc n
            ++ insts.flatMap
                (fun i =>
                  List.replicate ((i.repositories.map (fun r => r.full_name)).count n) i) := by
  intro insts
  induction insts with
  | nil => intro acc; simp
  | cons i rest ih =>
    intro acc
    simp only [List.foldl_cons, List.flatMap_cons]
    rw [ih]
    rw [groupVal_repos_foldl i n i.repositories acc]
    rw [List.append_assoc]

theorem flatMap_replicate_filter (n : String) :
    ∀ insts : List Installation,
      (∀ i ∈ insts, (i.repositories.map (fun r => r.full_name)).Nodup) →
      insts.flatMap
          (fun i => List.replicate ((i.repositories.map (fun r => r.full_name)).count n) i)
        = insts.filter (fun i => listsName i n) := by
  intro insts
  induction insts with
  | nil => intro _; rfl
  | cons i rest ih =>
    intro hrep
    simp only [List.flatMap_cons, List.filter_cons]
    have hnd := hrep i (List.mem_cons_self i rest)
    have htail := ih (fun j hj => hrep j (List.mem_cons_of_mem i hj))
    by_cases h : listsName i n = true
    · have hmem : n ∈ i.repositories.map (fun r => r.full_name) := (listsName_iff i n).mp h
      rw [List.count_eq_one_of_mem hnd hmem]
      rw [htail, h]
      rfl
    · have hmem : n ∉ i.repositories.map (fun r => r.full_name) := by
        intro hc
        exact h ((listsName_iff i n).mpr hc)
      rw [List.count_eq_zero_of_not_mem hmem]
      rw [htail]
      have hb : listsName i n = false := by
        cases hli : listsName i n
        · rfl
        · exact absurd hli h
      rw [hb]
      rfl

theorem groupVal_buildGroups (insts : List Installation)
    (hrep : ∀ i ∈ insts, (i.repositories.map (fun r => r.full_name)).Nodup) (n : String) :
    groupVal (buildGroups insts) n = insts.filter (fun i => listsName i n) := by
  unfold buildGroups
  rw [groupVal_buildGroups_aux n insts []]
  rw [flatMap_replicate_filter n insts hrep]
  rfl

theorem mem_keys_addToGroup (acc : List (String × List Installation)) (k : String)
    (i : Installation) (x : String)
    (h : x ∈ (addToGroup acc k i).map (fun e => e.1)) :
    x ∈ acc.map (fun e => e.1) ∨ x = k := by
  induction acc with
  | nil =>
    simp [addToGroup] at h
    exact Or.inr h
  | cons e rest ih =>
    unfold addToGroup at h
    by_cases h1 : e.1 = k
    · rw [if_pos h1] at h
      simp only [List.map_cons, List.mem_cons] at h ⊢
      rcases h with h | h
      · exact Or.inl (Or.inl h)
      · exact Or.inl (Or.inr h)
    · rw [if_neg h1] at h
      simp only [List.map_cons, List.mem_cons] at h ⊢
      rcases h with h | h
      · exact Or.inl (Or.inl h)
      · rcases ih h with h2 | h2
        · exact Or.inl (Or.inr h2)
        · exact Or.inr h2

theorem keys_nodup_addToGroup (acc : List (String × List Installation)) (k : String)
    (i : Installation) (hnd : (acc.map (fun e => e.1)).Nodup) :
    ((addToGroup acc k i).map (fun e => e.1)).Nodup := by
  induction acc with
  | nil => simp [addToGroup]
  | cons e rest ih =>
    unfold addToGroup
    simp only [List.map_cons, List.nodup_cons] at hnd
    by_cases h1 : e.1 = k
    · rw [if_pos h1]
      simp only [List.map_cons, List.nodup_cons]
      exact hnd
    · rw [if_neg h1]
      simp only [List.map_cons, List.nodup_cons]
      refine ⟨?_, ih hnd.2⟩
      intro hc
      rcases mem_keys_addToGroup rest k i e.1 hc with h2 | h2
      · exact hnd.1 h2
      · exact h1 h2

theorem keys_nodup_repos_foldl (i : Installation) :
    ∀ (repos : List RepoRef) (acc : List (String × List Installation)),
      (acc.map (fun e => e.1)).Nodup →
      ((repos.foldl (fun a r => addToGroup a r.full_name i) acc).map (fun e => e.1)).Nodup := by
  intro repos
  induction repos with
  | nil => intro acc h; exact h
  | cons r rest ih =>
    intro acc h
    simp only [List.foldl_cons]
    exact ih (addToGroup acc r.full_name i) (keys_nodup_addToGroup acc r.full_name i h)

theorem keys_nodup_buildGroups (insts : List Installation) :
    ((buildGroups insts).map (fun e => e.1)).Nodup := by
  unfold buildGroups
  have haux : ∀ (L : List Installation) (acc : List (String × List Installation)),
      (acc.map (fun e => e.1)).Nodup →
      ((L.foldl
          (fun a inst =>
            inst.repositories.foldl (fun a2 r => addToGroup a2 r.full_name inst) a)
          acc).map (fun e => e.1)).Nodup := by
    intro L
    induction L with
    | nil => intro acc h; exact h
    | cons j rest ih =>
      intro acc h
      simp only [List.foldl_cons]
      exact ih _ (keys_nodup_repos_foldl j j.repositories acc h)
  exact haux insts [] (by simp)

theorem groupVal_of_mem (gs : List (String × List Installation))
    (hnd : (gs.map (fun e => e.1)).Nodup) (n : String) (g : List Installation)
    (hmem : (n, g) ∈ gs) : groupVal gs n = g := by
  induction gs with
  | nil => simp at hmem
  | cons e rest ih =>
    simp only [List.map_cons, List.nodup_cons] at hnd
    rcases List.mem_cons.mp hmem with he | he
    · rw [← he]
      simp [groupVal]
    · unfold groupVal
      by_cases h1 : e.1 = n
      · exfalso
        apply hnd.1
        rw [h1]
        exact List.mem_map.mpr ⟨(n, g), he, rfl⟩
      · rw [if_neg h1]
        exact ih hnd.2 he

theorem exists_entry_of_groupVal_ne_nil (gs : List (String × List Installation)) (n : String)
    (h : groupVal gs n ≠ []) : (n, groupVal gs n) ∈ gs := by
  induction gs with
  | nil => exact absurd rfl h
  | cons e rest ih =>
    unfold groupVal at h ⊢
    by_cases h1 : e.1 = n
    · rw [if_pos h1] at h ⊢
      have he : (n, e.2) = e := by
        rw [← h1]
      rw [he]
      exact List.mem_cons_self e rest
    · rw [if_neg h1] at h ⊢
      exact List.mem_cons_of_mem e (ih h)

theorem foldl_filter {α β : Type} (f : β → α → Bool) :
    ∀ (L : List β) (acc : List α),
      L.foldl (fun a b => a.filter (f b)) acc
        = acc.filter (fun x => L.all (fun b => f b x)) := by
  intro L
  induction L with
  | nil => intro acc; simp
  | cons b rest ih =>
    intro acc
    simp only [List.foldl_cons]
    rw [ih (acc.filter (f b))]
    rw [List.filter_filter]
    apply List.filter_congr
    intro x _
    simp [List.all_cons, Bool.and_comm]

theorem all_map_id_ne (x : Installation) :
    ∀ l : List Installation,
      ((l.map (fun i => i.id)).all (fun d => decide (x.id ≠ d)))
        = l.all (fun old => decide (x.id ≠ old.id)) := by
  intro l
  induction l with
  | nil => rfl
  | cons y ys ih =>
    simp only [List.map_cons, List.all_cons]
    rw [ih]

theorem cleanup_foldl_aux :
    ∀ (gs : List (String × List Installation)) (acc : List Installation),
      gs.foldl
          (fun acc2 g =>
            if 1 < g.2.length then
              ((sortByCreatedDesc g.2).drop 1).foldl
                (fun a2 old => a2.filter (fun x => x.id ≠ old.id)) acc2
            else acc2)
          acc
        = acc.filter (fun x => (lostIds gs).all (fun d => x.id ≠ d)) := by
  intro gs
  induction gs with
  | nil => intro acc; simp [lostIds]
  | cons g rest ih =>
    intro acc
    simp only [List.foldl_cons, lostIds]
    by_cases h : 1 < g.2.length
    · rw [if_pos h, if_pos h]
      rw [foldl_filter (fun (old : Installation) (x : Installation) => decide (x.id ≠ old.id))
        ((sortByCreatedDesc g.2).drop 1) acc]
      rw [ih]
      rw [List.filter_filter]
      apply List.filter_congr
      intro x _
      rw [List.all_append]
      rw [all_map_id_ne x ((sortByCreatedDesc g.2).drop 1)]
      rw [Bool.and_comm]
    · rw [if_neg h, if_neg h]
      rw [ih]
      simp

theorem cleanup_eq_filter (insts : List Installation) :
    cleanupDuplicateInstallations insts
      = insts.filter (fun x => (lostIds (buildGroups insts)).all (fun d => x.id ≠ d)) := by
  unfold cleanupDuplicateInstallations
  exact cleanup_foldl_aux (buildGroups insts) insts

theorem mem_lostIds (d : Nat) :
    ∀ gs : List (String × List Installation),
      d ∈ lostIds gs ↔
        ∃ e ∈ gs, 1 < e.2.length
          ∧ d ∈ ((sortByCreatedDesc e.2).drop 1).map (fun i => i.id) := by
  intro gs
  induction gs with
  | nil => simp [lostIds]
  | cons g rest ih =>
    simp only [lostIds, List.mem_append, ih]
    by_cases h : 1 < g.2.length
    · rw [if_pos h]
      constructor
      · rintro (hm | ⟨e, he, hlen, hmem⟩)
        · exact ⟨g, List.mem_cons_self g rest, h, hm⟩
        · exact ⟨e, List.mem_cons_of_mem g he, hlen, hmem⟩
      · rintro ⟨e, he, hlen, hmem⟩
        rcases List.mem_cons.mp he with heg | her
        · subst heg
          exact Or.inl hmem
        · exact Or.inr ⟨e, her, hlen, hmem⟩
    · rw [if_neg h]
      simp only [List.not_mem_nil, false_or]
      constructor
      · rintro ⟨e, he, hlen, hmem⟩
        exact ⟨e, List.mem_cons_of_mem g he, hlen, hmem⟩
      · rintro ⟨e, he, hlen, hmem⟩
        rcases List.mem_cons.mp he with heg | her
        · subst heg
          exact absurd hlen h
        · exact ⟨e, her, hlen, hmem⟩

theorem id_inj_of_nodup (insts : List Installation)
    (hid : (insts.map (fun i => i.id)).Nodup) :
    ∀ a ∈ insts, ∀ b ∈ insts, a.id = b.id → a = b := by
  induction insts with
  | nil => intro a ha; simp at ha
  | cons i rest ih =>
    simp only [List.map_cons, List.nodup_cons] at hid
    intro a ha b hb he
    rcases List.mem_cons.mp ha with hai | har
    · rcases List.mem_cons.mp hb with hbi | hbr
      · rw [hai, hbi]
      · exfalso
        apply hid.1
        have hib : i.id = b.id := by rw [← hai]; exact he
        rw [hib]
        exact List.mem_map.mpr ⟨b, hbr, rfl⟩
    · rcases List.mem_cons.mp hb with hbi | hbr
      · exfalso
        apply hid.1
        have hia : i.id = a.id := by rw [← hbi]; exact he.symm
        rw [hia]
        exact List.mem_map.mpr ⟨a, har, rfl⟩
      · exact ih hid.2 a har b hbr he

theorem one_lt_length_of_two_mem {α : Type} (l : List α) (a b : α)
    (ha : a ∈ l) (hb : b ∈ l) (hne : a ≠ b) : 1 < l.length := by
  cases l with
  | nil => simp at ha
  | cons x xs =>
    cases xs with
    | nil =>
      simp at ha hb
      rw [ha, ← hb] at hne
      exact absurd rfl hne
    | cons y ys =>
      simp [List.length_cons]

/-- C1 (counterexample).  The claim states deduplication discards only the
duplicate bindings and keeps the losing installation records with their
other repositories.  With installation 1 (newer) and installation 2 (older)
both listing `a/b`, and installation 2 also listing `b/c`, the source
deletes installation 2 entirely: its record is gone and no retained
installation lists `b/c` any more. -/
theorem cleanupDuplicates_deletes_losing_record :
    cleanupDuplicateInstallations [instNewer, instOlder] = [instNewer]
      ∧ (∀ i ∈ cleanupDuplicateInstallations [instNewer, instOlder], i.id ≠ 2)
      ∧ (∀ i ∈ cleanupDuplicateInstallations [instNewer, instOlder],
          listsName i "b/c" = false) := by
  refine ⟨by decide, by decide, by decide⟩

/-- C1 (amended).  For a registry with distinct installation identifiers,
pairwise distinct `createdAt` timestamps and per-installation distinct
repository names: `cleanupDuplicateInstallations` keeps the table order of
the survivors, and an installation survives exactly when, for every
repository full name it lists, every other installation listing the same
name is strictly older.  Equivalently, every installation that loses any
duplicated name is deleted as a whole record — with all its other
repositories — and for a duplicated name at most the newest lister remains
(it too disappears when it loses some other name). -/
theorem cleanupDuplicates_survivor_characterization (insts : List Installation)
    (hid : (insts.map (fun i => i.id)).Nodup)
    (hca : ∀ a ∈ insts, ∀ b ∈ insts, a.createdAt = b.createdAt → a = b)
    (hrep : ∀ i ∈ insts, (i.repositories.map (fun r => r.full_name)).Nodup) :
    (cleanupDuplicateInstallations insts).Sublist insts
      ∧ ∀ x ∈ insts,
          (x ∈ cleanupDuplicateInstallations insts ↔
            ∀ y ∈ insts, ∀ n : String,
              listsName x n = true → listsName y n = true → y ≠ x →
                y.createdAt < x.createdAt) := by
  have hfilter := cleanup_eq_filter insts
  have hidinj := id_inj_of_nodup insts hid
  have hnodup : insts.Nodup := List.Nodup.of_map _ hid
  constructor
  · rw [hfilter]
    exact List.filter_sublist insts
  · intro x hx
    rw [hfilter, List.mem_filter]
    constructor
    · rintro ⟨-, hall⟩ y hy n hxn hyn hyne
      by_contra hnlt
      have hne' : x.createdAt ≠ y.createdAt := by
        intro he
        exact hyne (hca y hy x hx he.symm)
      have hxy : x.createdAt < y.createdAt := by omega
      have hxg : x ∈ insts.filter (fun i => listsName i n) := List.mem_filter.mpr ⟨hx, hxn⟩
      have hyg : y ∈ insts.filter (fun i => listsName i n) := List.mem_filter.mpr ⟨hy, hyn⟩
      have hglen : 1 < (insts.filter (fun i => listsName i n)).length :=
        one_lt_length_of_two_mem _ x y hxg hyg (fun he => hyne he.symm)
      have hgnd : (insts.filter (fun i => listsName i n)).Nodup := hnodup.filter _
      have hginj : ∀ a ∈ insts.filter (fun i => listsName i n),
          ∀ b ∈ insts.filter (fun i => listsName i n), a.createdAt = b.createdAt → a = b :=
        fun a hag b hbg he =>
          hca a (List.mem_of_mem_filter hag) b (List.mem_of_mem_filter hbg) he
      have hxdrop : x ∈ (sortByCreatedDesc (insts.filter (fun i => listsName i n))).drop 1 :=
        (mem_drop_one_sorted _ hgnd hginj x).mpr ⟨hxg, y, hyg, hxy⟩
      have hgv : groupVal (buildGroups insts) n = insts.filter (fun i => listsName i n) :=
        groupVal_buildGroups insts hrep n
      have hentry : (n, insts.filter (fun i => listsName i n)) ∈ buildGroups insts := by
        have hne2 : groupVal (buildGroups insts) n ≠ [] := by
          rw [hgv]
          exact List.ne_nil_of_mem hxg
        have h2 := exists_entry_of_groupVal_ne_nil (buildGroups insts) n hne2
        rw [hgv] at h2
        exact h2
      have hdmem : x.id ∈ lostIds (buildGroups insts) :=
        (mem_lostIds x.id (buildGroups insts)).mpr
          ⟨(n, insts.filter (fun i => listsName i n)), hentry, hglen,
            List.mem_map.mpr ⟨x, hxdrop, rfl⟩⟩
      have hcontra := List.all_eq_true.mp hall x.id hdmem
      simp at hcontra
    · intro hP
      refine ⟨hx, ?_⟩
      rw [List.all_eq_true]
      intro d hd
      simp only [decide_eq_true_eq]
      intro hxd
      rw [← hxd] at hd
      obtain ⟨e, hegs, helen, hemem⟩ := (mem_lostIds x.id (buildGroups insts)).mp hd
      rcases e with ⟨n, g⟩
      have hgv : g = insts.filter (fun i => listsName i n) := by
        have h2 := groupVal_of_mem (buildGroups insts) (keys_nodup_buildGroups insts) n g hegs
        rw [groupVal_buildGroups insts hrep n] at h2
        exact h2.symm
      obtain ⟨z, hzdrop, hzid⟩ := List.mem_map.mp hemem
      have hzg : z ∈ g := by
        have hzsort : z ∈ sortByCreatedDesc g := List.drop_subset 1 _ hzdrop
        exact (sortByCreatedDesc_perm g).mem_iff.mp hzsort
      have hzin : z ∈ insts := by
        rw [hgv] at hzg
        exact List.mem_of_mem_filter hzg
      have hzx : z = x := hidinj z hzin x hx hzid
      rw [hzx] at hzdrop
      have hgnd : g.Nodup := by
        rw [hgv]
        exact hnodup.filter _
      have hginj : ∀ a ∈ g, ∀ b ∈ g, a.createdAt = b.createdAt → a = b := by
        rw [hgv]
        exact fun a hag b hbg he =>
          hca a (List.mem_of_mem_filter hag) b (List.mem_of_mem_filter hbg) he
      obtain ⟨hxg, y, hyg, hxy⟩ := (mem_drop_one_sorted g hgnd hginj x).mp hzdrop
      have hyin : y ∈ insts := by
        rw [hgv] at hyg
        exact List.mem_of_mem_filter hyg
      have hyn : listsName y n = true := by
        rw [hgv] at hyg
        exact (List.mem_filter.mp hyg).2
      have hxn : listsName x n = true := by
        rw [hgv] at hxg
        exact (List.mem_filter.mp hxg).2
      have hyx : y ≠ x := by
        intro he
        rw [he] at hxy
        exact absurd hxy (lt_irrefl _)
      have := hP y hyin n hxn hyn hyx
      omega

/-- C1 (witness): the amended theorem at the two-installation registry of
the counterexample; the newer installation (the only survivor) satisfies the
characterization, the older one does not. -/
theorem cleanupDuplicates_survivor_characterization_witness :
    (([instNewer, instOlder].map (fun i => i.id)).Nodup)
      ∧ (∀ a ∈ [instNewer, instOlder], ∀ b ∈ [instNewer, instOlder],
          a.createdAt = b.createdAt → a = b)
      ∧ (∀ i ∈ [instNewer, instOlder], (i.repositories.map (fun r => r.full_name)).Nodup)
      ∧ ((cleanupDuplicateInstallations [instNewer, instOlder]).Sublist [instNewer, instOlder]
          ∧ ∀ x ∈ [instNewer, instOlder],
              (x ∈ cleanupDuplicateInstallations [instNewer, instOlder] ↔
                ∀ y ∈ [instNewer, instOlder], ∀ n : String,
                  listsName x n = true → listsName y n = true → y ≠ x →
                    y.createdAt < x.createdAt)) :=
  ⟨by decide, by decide, by decide,
    cleanupDuplicates_survivor_characterization [instNewer, instOlder]
      (by decide) (by decide) (by decide)⟩
